import Mathlib

/-!
Shallow embedding of `HypergraphNodeCentralityLifting.lift_topology`
(modules/transforms/liftings/graph2hypergraph/node_centrality_lifting.py)
together with the behaviour of the library calls it makes
(networkx graph construction, breadth-first / Dijkstra all-pairs shortest
path lengths, scipy-style power-iteration pagerank, numpy linear
interpolation quantile, torch dense-tensor writes).

Real numbers of the Python program are modelled as rationals; machine
floats are idealised as exact rational arithmetic.  Exceptions raised by
the Python code are modelled with an explicit error monad.
-/

set_option allowUnsafeReducibility true in
attribute [semireducible] Rat.add Rat.mul Rat.inv Rat.div Rat.sub Rat.neg Rat.blt Rat.floor Rat.ceil

namespace NodeCentrality

/-- Exceptions that the transform (or a library routine it calls) can raise. -/
inductive Err where
  | indexError
  | assertionError
  | notImplementedError
  | powerIterationFailedConvergence
  | valueError
  | contradictoryPathsError
  | zeroDivisionError
  | typeError
  deriving DecidableEq

instance {α : Type} [DecidableEq α] : DecidableEq (Except Err α) := fun a b =>
  match a, b with
  | .error e, .error e' => if h : e = e' then .isTrue (by rw [h]) else .isFalse (by simp [h])
  | .ok x, .ok y => if h : x = y then .isTrue (by rw [h]) else .isFalse (by simp [h])
  | .error _, .ok _ => .isFalse (by simp)
  | .ok _, .error _ => .isFalse (by simp)

/-- Pipeline stages of `lift_topology`, in their execution order; used to
record which stages completed before an exception was raised. -/
inductive Step where
  | graphConstruction
  | assertionCheck
  | distanceComputation
  | centralityComputation
  | hubSelection
  | incidenceConstruction
  | featurePassthrough
  deriving DecidableEq

/-- A two-dimensional feature tensor: its column count (`shape[1]`) and rows. -/
structure Table where
  cols : ℕ
  rows : List (List ℚ)
  deriving DecidableEq

/-- The fields of the `torch_geometric.data.Data` argument that
`lift_topology` reads: `edge_index` (transposed to an edge list),
`edge_attr`, `x` and `num_nodes`. -/
structure Input where
  numNodes : ℕ
  edges : List (ℕ × ℕ)
  edgeAttr : Option Table
  x : Option Table
  deriving DecidableEq

/-- Constructor parameters of `HypergraphNodeCentralityLifting`. -/
structure Config where
  network_type : String
  alpha : ℚ
  th_percentile : ℚ
  n_most_influential : ℤ
  do_weight_hyperedge_influence : Bool
  do_hyperedge_node_assignment_feature_lifting_passthrough : Bool
  max_iter : ℕ
  tol : ℚ
  deriving DecidableEq

def typeWeighted : String := "weighted"

def typeUnweighted : String := "unweighted"

/-- The attribute key under which `G.add_edge(v1, v2, w=...)` stores the
edge weight. -/
def wKey : String := "w"

/-- The attribute key that `nx.all_pairs_dijkstra_path_length` reads
(its default `weight="weight"` parameter; the call site passes no
weight argument). -/
def weightKey : String := "weight"

/-- Attribute payload of one stored edge. -/
abbrev EdgeData := List (String × ℚ)

/-- Adjacency of the networkx graph: per node, its neighbour dictionary in
insertion order. -/
abbrev Adj := List (ℕ × List (ℕ × EdgeData))

/-- Python-dict style update of an association list: an existing key keeps
its position and gets the new value, a new key is appended. -/
def dictSet {κ α : Type} [DecidableEq κ] : List (κ × α) → κ → α → List (κ × α)
  | [], k, a => [(k, a)]
  | (k', b) :: rest, k, a =>
    if k' = k then (k, a) :: rest else (k', b) :: dictSet rest k a

/-- The `np.ones(shape=(n, 1))` fallback attribute table. -/
def onesTable (n : ℕ) : Table := ⟨1, List.replicate n [1]⟩

/-- Edge attribute selection: ones when `edge_attr` is absent, the mode is
unweighted, or the table has more than one column; otherwise the table. -/
def edgeAttrOf (input : Input) (cfg : Config) : Table :=
  match input.edgeAttr with
  | none => onesTable input.edges.length
  | some t =>
    if cfg.network_type = typeUnweighted ∨ 1 < t.cols then onesTable input.edges.length else t

/-- Node attribute selection, by the identical rule applied to `data.x`. -/
def nodeAttrOf (input : Input) (cfg : Config) : Table :=
  match input.x with
  | none => onesTable input.numNodes
  | some t =>
    if cfg.network_type = typeUnweighted ∨ 1 < t.cols then onesTable input.numNodes else t

/-- The networkx graph: node insertion order, the per-node `"w"` attribute
assignments, and the adjacency structure. -/
structure Graph where
  nodes : List ℕ
  nodeW : List (ℕ × ℚ)
  adj : Adj
  deriving DecidableEq

/-- `G.add_node(v)`: a no-op when the node exists, otherwise appends it. -/
def addNode (G : Graph) (v : ℕ) : Graph :=
  if (G.adj.lookup v).isSome then G
  else { G with nodes := G.nodes ++ [v], adj := G.adj ++ [(v, [])] }

/-- `G.nodes[v]["w"] = w`. -/
def setNodeW (G : Graph) (v : ℕ) (w : ℚ) : Graph :=
  { G with nodeW := dictSet G.nodeW v w }

/-- Store one direction of an edge in the adjacency structure. -/
def setAdjEntry (adj : Adj) (u v : ℕ) (d : EdgeData) : Adj :=
  dictSet adj u (dictSet ((adj.lookup u).getD []) v d)

/-- `G.add_edge(u, v, w=w)`: adds missing endpoints, then stores the edge
data in both directions (overwriting a previous parallel edge). -/
def addEdge (G : Graph) (u v : ℕ) (w : ℚ) : Graph :=
  let G' := addNode (addNode G u) v
  { G' with adj := setAdjEntry (setAdjEntry G'.adj u v [(wKey, w)]) v u [(wKey, w)] }

/-- `row[0]`: raises IndexError on an empty feature row. -/
def headE (l : List ℚ) : Except Err ℚ :=
  match l.head? with
  | some w => .ok w
  | none => .error .indexError

/-- One iteration of the node loop: `G.add_node(v)` followed by
`G.nodes[v]["w"] = node_attr[v][0]`. -/
def nodeStep (rows : List (List ℚ)) (G : Graph) (v : ℕ) : Except Err Graph :=
  (headE (rows.getD v [])).map (fun w => setNodeW (addNode G v) v w)

/-- One iteration of the edge loop:
`G.add_edge(edge_list[e][0], edge_list[e][1], w=edge_attr[e][0])`. -/
def edgeStep (edges : List (ℕ × ℕ)) (rows : List (List ℚ)) (G : Graph) (e : ℕ) :
    Except Err Graph :=
  (headE (rows.getD e [])).map (fun w => addEdge G (edges.getD e (0, 0)).1 (edges.getD e (0, 0)).2 w)

/-- Graph construction from the selected attribute tables: the node loop
(`add_node` plus the `"w"` assignment from `node_attr[v][0]`) followed by
the edge loop (`add_edge` with `w=edge_attr[e][0]`). -/
def graphOf (input : Input) (cfg : Config) : Except Err Graph :=
  ((List.range (nodeAttrOf input cfg).rows.length).foldlM
      (nodeStep (nodeAttrOf input cfg).rows) (Graph.mk [] [] [])).bind
    (fun G1 =>
      (List.range input.edges.length).foldlM
        (edgeStep input.edges (edgeAttrOf input cfg).rows) G1)

/-- Neighbour ids of `v` in adjacency order. -/
def adjKeys (adj : Adj) (v : ℕ) : List ℕ := ((adj.lookup v).getD []).map Prod.fst

/-- Dict-style union of a key list with a set of new keys: existing keys
keep their position, new keys are appended in order. -/
def dictInsertKeys (l : List ℕ) (ks : List ℕ) : List ℕ :=
  ks.foldl (fun acc k => if k ∈ acc then acc else acc ++ [k]) l

/-- One level of the breadth-first traversal of
`nx.single_source_shortest_path_length`: emit unseen nodes of this level
at distance `level` and collect the next level from their neighbours. -/
def bfsLevelPass (adj : Adj) (seen : List (ℕ × ℚ)) (thislevel : List ℕ) (level : ℕ) :
    List (ℕ × ℚ) × List ℕ :=
  thislevel.foldl
    (fun (acc : List (ℕ × ℚ) × List ℕ) v =>
      if (acc.1.lookup v).isSome then acc
      else (acc.1 ++ [(v, (level : ℚ))], dictInsertKeys acc.2 (adjKeys adj v)))
    (seen, [])

/-- Level-by-level breadth-first loop (fuel-bounded recursion). -/
def bfsLoop (adj : Adj) (fuel : ℕ) (seen : List (ℕ × ℚ)) (nextlevel : List ℕ) (level : ℕ) :
    List (ℕ × ℚ) :=
  match fuel with
  | 0 => seen
  | fuel' + 1 =>
    if nextlevel = [] then seen
    else
      let acc := bfsLevelPass adj seen nextlevel level
      bfsLoop adj fuel' acc.1 acc.2 (level + 1)

/-- Hop-count distances from `s`, in breadth-first emission order (the
insertion order of the resulting Python dict). -/
def singleSourceShortestPathLength (adj : Adj) (s : ℕ) : List (ℕ × ℚ) :=
  bfsLoop adj (adj.length + 2) [] [s] 0

/-- The edge length used by the Dijkstra call: the call site passes no
`weight` argument, so networkx reads `data.get("weight", 1)` — and the
edges only carry a `"w"` attribute, so every edge length is the default 1. -/
def dijkstraWeight (d : EdgeData) : ℚ := (d.lookup weightKey).getD 1

/-- Strict lexicographic order on `(distance, counter)` heap keys. -/
def heapLt (a b : ℚ × ℕ × ℕ) : Prop := a.1 < b.1 ∨ (a.1 = b.1 ∧ a.2.1 < b.2.1)

instance : DecidableRel heapLt := fun a b => by
  unfold heapLt; infer_instance

/-- The minimal heap entry (unique: counters are distinct). -/
def minEntry (h : ℚ × ℕ × ℕ) (t : List (ℚ × ℕ × ℕ)) : ℚ × ℕ × ℕ :=
  t.foldl (fun b x => if heapLt x b then x else b) h

/-- `heapq.heappop`: remove and return the minimal entry. -/
def popMin (heap : List (ℚ × ℕ × ℕ)) : Option ((ℚ × ℕ × ℕ) × List (ℚ × ℕ × ℕ)) :=
  match heap with
  | [] => none
  | h :: t => some (minEntry h t, (h :: t).erase (minEntry h t))

/-- State of the Dijkstra relaxation fold: the tentative-distance dict
`seen`, the heap, and the push counter. -/
abbrev DijkstraState := List (ℕ × ℚ) × List (ℚ × ℕ × ℕ) × ℕ

/-- Relax the edges out of `v` (popped at distance `d`), mirroring the
inner loop of `networkx._dijkstra_multisource`, including its
contradictory-paths check. -/
def relaxEdges (dist : List (ℕ × ℚ)) (d : ℚ) (nbrs : List (ℕ × EdgeData)) (st : DijkstraState) :
    Except Err DijkstraState :=
  nbrs.foldlM
    (fun (st : DijkstraState) nbr =>
      match dist.lookup nbr.1 with
      | some du =>
        if d + dijkstraWeight nbr.2 < du then .error .contradictoryPathsError else .ok st
      | none =>
        match st.1.lookup nbr.1 with
        | some su =>
          if d + dijkstraWeight nbr.2 < su then
            .ok (dictSet st.1 nbr.1 (d + dijkstraWeight nbr.2),
              st.2.1 ++ [(d + dijkstraWeight nbr.2, st.2.2, nbr.1)], st.2.2 + 1)
          else .ok st
        | none =>
          .ok (dictSet st.1 nbr.1 (d + dijkstraWeight nbr.2),
            st.2.1 ++ [(d + dijkstraWeight nbr.2, st.2.2, nbr.1)], st.2.2 + 1))
    st

/-- The Dijkstra main loop (fuel-bounded): pop the minimal fringe entry,
record its final distance unless already settled, and relax its edges. -/
def dijkstraLoop (adj : Adj) (fuel : ℕ) (dist : List (ℕ × ℚ)) (seen : List (ℕ × ℚ))
    (heap : List (ℚ × ℕ × ℕ)) (counter : ℕ) : Except Err (List (ℕ × ℚ)) :=
  match fuel with
  | 0 => .ok dist
  | fuel' + 1 =>
    match popMin heap with
    | none => .ok dist
    | some (entry, rest) =>
      if (dist.lookup entry.2.2).isSome then dijkstraLoop adj fuel' dist seen rest counter
      else
        match relaxEdges (dist ++ [(entry.2.2, entry.1)]) entry.1
            ((adj.lookup entry.2.2).getD []) (seen, rest, counter) with
        | .error e => .error e
        | .ok st =>
          dijkstraLoop adj fuel' (dist ++ [(entry.2.2, entry.1)]) st.1 st.2.1 st.2.2

/-- Fuel bound for the Dijkstra loop: more than the number of possible
heap pushes (one initial push plus at most one per stored edge direction). -/
def dijkstraFuel (adj : Adj) : ℕ := 2 + (adj.map (fun p => p.2.length)).sum + adj.length

/-- Shortest-path lengths from `s` in settlement (pop) order: the
insertion order of the resulting Python dict. -/
def singleSourceDijkstraPathLength (adj : Adj) (s : ℕ) : Except Err (List (ℕ × ℚ)) :=
  dijkstraLoop adj (dijkstraFuel adj) [] [(s, 0)] [(0, 0, s)] 1

/-- The all-pairs shortest-path table `sp`, per source node, dispatching on
`network_type` exactly as the source does (any other value raises
NotImplementedError). -/
def spOf (G : Graph) (cfg : Config) : Except Err (List (ℕ × List (ℕ × ℚ))) :=
  if cfg.network_type = typeUnweighted then
    .ok (G.nodes.map (fun s => (s, singleSourceShortestPathLength G.adj s)))
  else if cfg.network_type = typeWeighted then
    G.nodes.mapM (fun s => (singleSourceDijkstraPathLength G.adj s).map (fun r => (s, r)))
  else .error .notImplementedError

/-- The transition weight pagerank reads: the call passes `weight="w"`,
so this finds the stored edge weight. -/
def prWeightFn (d : EdgeData) : ℚ := (d.lookup wKey).getD 1

/-- Weighted adjacency-matrix entry `A[u][v]`. -/
def adjWeight (adj : Adj) (u v : ℕ) : ℚ :=
  match ((adj.lookup u).getD []).lookup v with
  | some d => prWeightFn d
  | none => 0

/-- Out-weight row sum `S[u]` of the weighted adjacency. -/
def rowSum (adj : Adj) (u : ℕ) : ℚ :=
  (((adj.lookup u).getD []).map (fun p => prWeightFn p.2)).sum

/-- Row-stochastic transition entry: zero rows (dangling nodes) stay zero. -/
def stochEntry (adj : Adj) (u v : ℕ) : ℚ :=
  if rowSum adj u = 0 then 0 else adjWeight adj u v / rowSum adj u

/-- One pagerank power iteration
`x' = alpha (x A + (sum of dangling mass) p) + (1 - alpha) p`
with uniform teleport vector `p`, as in `networkx.pagerank`'s scipy
implementation. -/
def prStep (G : Graph) (alpha : ℚ) (x : List ℚ) : List ℚ :=
  G.nodes.map (fun j =>
    alpha * ((((G.nodes.zip x).map (fun iv => iv.2 * stochEntry G.adj iv.1 j)).sum) +
        (((G.nodes.zip x).filter (fun nv => rowSum G.adj nv.1 = 0)).map Prod.snd).sum *
          (1 / (G.nodes.length : ℚ))) +
      (1 - alpha) * (1 / (G.nodes.length : ℚ)))

/-- L1 distance between successive iterates. -/
def l1diff (x y : List ℚ) : ℚ := ((x.zip y).map (fun ab => |ab.1 - ab.2|)).sum

/-- The power iteration: stop once the L1 change drops below `n * tol`,
raise PowerIterationFailedConvergence when `max_iter` is exhausted. -/
def prLoop (G : Graph) (cfg : Config) (fuel : ℕ) (x : List ℚ) : Except Err (List ℚ) :=
  match fuel with
  | 0 => .error .powerIterationFailedConvergence
  | fuel' + 1 =>
    if l1diff (prStep G cfg.alpha x) x < (G.nodes.length : ℚ) * cfg.tol then
      .ok (prStep G cfg.alpha x)
    else prLoop G cfg fuel' (prStep G cfg.alpha x)

/-- `nx.pagerank(G, alpha, max_iter, tol, weight="w")`: scores in node
order; the empty graph short-circuits to the empty dict. -/
def pagerank (G : Graph) (cfg : Config) : Except Err (List ℚ) :=
  if G.nodes.length = 0 then .ok []
  else prLoop G cfg cfg.max_iter (List.replicate G.nodes.length (1 / (G.nodes.length : ℚ)))

/-- `np.quantile(values, q)` with the default linear interpolation method:
sort, take `h = q (n-1)`, interpolate between the neighbouring order
statistics.  Empty data or an out-of-range `q` raises ValueError. -/
def quantileLinear (l : List ℚ) (q : ℚ) : Except Err ℚ :=
  if l.length = 0 then .error .valueError
  else if q < 0 ∨ 1 < q then .error .valueError
  else if (⌊q * ((l.length : ℚ) - 1)⌋).toNat + 1 < l.length then
    .ok ((List.insertionSort (fun a b => a ≤ b) l).getD (⌊q * ((l.length : ℚ) - 1)⌋).toNat 0 +
      (q * ((l.length : ℚ) - 1) - ((⌊q * ((l.length : ℚ) - 1)⌋).toNat : ℚ)) *
        ((List.insertionSort (fun a b => a ≤ b) l).getD
            ((⌊q * ((l.length : ℚ) - 1)⌋).toNat + 1) 0 -
          (List.insertionSort (fun a b => a ≤ b) l).getD (⌊q * ((l.length : ℚ) - 1)⌋).toNat 0))
  else .ok ((List.insertionSort (fun a b => a ≤ b) l).getD (⌊q * ((l.length : ℚ) - 1)⌋).toNat 0)

/-- `nodes_most_influential`: the nodes whose score reaches the cutoff, in
score-dict (node insertion) order. -/
def hubsFrom (nodes : List ℕ) (pr : List ℚ) (cutoff : ℚ) : List ℕ :=
  ((nodes.zip pr).filter (fun nv => cutoff ≤ nv.2)).map Prod.fst

/-- The entries of `v`'s distance row restricted to hub nodes, in row
insertion order, truncated to the first `n_most_influential`. -/
def selectedFor (sp : List (ℕ × List (ℕ × ℚ))) (hubs : List ℕ) (nMost : ℤ) (v : ℕ) :
    List (ℕ × ℚ) :=
  (((sp.lookup v).getD []).filter (fun kd => hubs.contains kd.1)).take nMost.toNat

/-- The incidence weight for one selected hub at distance `d`:
`max(1/d, 0.0001)` under inverse-distance weighting (a zero distance
raises ZeroDivisionError), else 1. -/
def weightFor (cfg : Config) (d : ℚ) : Except Err ℚ :=
  if cfg.do_weight_hyperedge_influence then
    if d = 0 then .error .zeroDivisionError else .ok (max (1 / d) (1 / 10000))
  else .ok 1

/-- The `(column, weight)` writes the loop performs into row `v`: a hub
self-assigns weight 1 in its own slot, any other node writes its selected
hubs' slots. -/
def rowWritesFor (cfg : Config) (sp : List (ℕ × List (ℕ × ℚ))) (hubs : List ℕ) (v : ℕ) :
    Except Err (List (ℕ × ℚ)) :=
  if hubs.contains v then .ok [(hubs.indexOf v, 1)]
  else
    (selectedFor sp hubs cfg.n_most_influential v).mapM
      (fun kd => (weightFor cfg kd.2).map (fun w => (hubs.indexOf kd.1, w)))

/-- Apply a sequence of writes to a row (last write to a column wins). -/
def applyWrites (row : List ℚ) (ws : List (ℕ × ℚ)) : List ℚ :=
  ws.foldl (fun r cw => r.set cw.1 cw.2) row

/-- Perform the assignments `incidence[v, c] = w` of one loop iteration;
torch raises IndexError on an out-of-range index. -/
def writeRow (numHyper : ℕ) (v : ℕ) (M : List (List ℚ)) (ws : List (ℕ × ℚ)) :
    Except Err (List (List ℚ)) :=
  ws.foldlM
    (fun M' cw =>
      if v < M'.length ∧ cw.1 < numHyper then .ok (M'.set v ((M'.getD v []).set cw.1 cw.2))
      else .error .indexError)
    M

/-- The incidence matrix: `torch.zeros(num_nodes, num_hyperedges)` filled
by the per-node assignment loop over `G.nodes`. -/
def incidenceFrom (numNodes numHyper : ℕ) (nodes : List ℕ)
    (rw : ℕ → Except Err (List (ℕ × ℚ))) : Except Err (List (List ℚ)) :=
  nodes.foldlM (fun M v => (rw v).bind (writeRow numHyper v M))
    (List.replicate numNodes (List.replicate numHyper 0))

/-- `data.x[nodes_most_influential]`: raises TypeError when `x` is `None`,
IndexError on an out-of-range hub id. -/
def hubFeatures (x : Option Table) (hubs : List ℕ) : Except Err Table :=
  match x with
  | none => .error .typeError
  | some t =>
    (hubs.mapM (fun v =>
      match t.rows.get? v with
      | some r => Except.ok r
      | none => Except.error Err.indexError)).map (fun rs => Table.mk t.cols rs)

/-- The returned `lifted_data` dictionary. -/
structure Output where
  incidence_hyperedges : List (List ℚ)
  num_hyperedges : ℕ
  x_0 : Option Table
  x_hyperedges : Option Table
  deriving DecidableEq

/-- The whole of `lift_topology`, paired with the list of pipeline stages
that completed before its result (ok or raised exception) was produced. -/
def liftTopologyT (input : Input) (cfg : Config) : List Step × Except Err Output :=
  match graphOf input cfg with
  | .error e => ([], .error e)
  | .ok G =>
    if cfg.n_most_influential < 1 then ([.graphConstruction], .error .assertionError)
    else
      match spOf G cfg with
      | .error e => ([.graphConstruction, .assertionCheck], .error e)
      | .ok sp =>
        match pagerank G cfg with
        | .error e =>
          ([.graphConstruction, .assertionCheck, .distanceComputation], .error e)
        | .ok pr =>
          match quantileLinear pr (1 - cfg.th_percentile) with
          | .error e =>
            ([.graphConstruction, .assertionCheck, .distanceComputation,
              .centralityComputation], .error e)
          | .ok cutoff =>
            match incidenceFrom input.numNodes (hubsFrom G.nodes pr cutoff).length G.nodes
                (rowWritesFor cfg sp (hubsFrom G.nodes pr cutoff)) with
            | .error e =>
              ([.graphConstruction, .assertionCheck, .distanceComputation,
                .centralityComputation, .hubSelection], .error e)
            | .ok M =>
              if cfg.do_hyperedge_node_assignment_feature_lifting_passthrough then
                match hubFeatures input.x (hubsFrom G.nodes pr cutoff) with
                | .error e =>
                  ([.graphConstruction, .assertionCheck, .distanceComputation,
                    .centralityComputation, .hubSelection, .incidenceConstruction],
                   .error e)
                | .ok t =>
                  ([.graphConstruction, .assertionCheck, .distanceComputation,
                    .centralityComputation, .hubSelection, .incidenceConstruction,
                    .featurePassthrough],
                   .ok ⟨M, (hubsFrom G.nodes pr cutoff).length, input.x, some t⟩)
              else
                ([.graphConstruction, .assertionCheck, .distanceComputation,
                  .centralityComputation, .hubSelection, .incidenceConstruction],
                 .ok ⟨M, (hubsFrom G.nodes pr cutoff).length, input.x, none⟩)

/-- The transform's result. -/
def liftTopology (input : Input) (cfg : Config) : Except Err Output :=
  (liftTopologyT input cfg).2

/-- The pipeline stages that ran to completion. -/
def liftSteps (input : Input) (cfg : Config) : List Step :=
  (liftTopologyT input cfg).1

/-- The shortest-path table of the run. -/
def spOfInput (input : Input) (cfg : Config) : Except Err (List (ℕ × List (ℕ × ℚ))) :=
  (graphOf input cfg).bind (fun G => spOf G cfg)

/-- The pagerank scores of the run. -/
def pagerankOf (input : Input) (cfg : Config) : Except Err (List ℚ) :=
  (graphOf input cfg).bind (fun G => pagerank G cfg)

/-- The quantile cutoff `th_cutoff` of the run. -/
def cutoffOf (input : Input) (cfg : Config) : Except Err ℚ :=
  (pagerankOf input cfg).bind (fun pr => quantileLinear pr (1 - cfg.th_percentile))

/-- The hub list `nodes_most_influential` of the run. -/
def hubsOf (input : Input) (cfg : Config) : Except Err (List ℕ) :=
  (graphOf input cfg).bind (fun G =>
    (pagerank G cfg).bind (fun pr =>
      (quantileLinear pr (1 - cfg.th_percentile)).map (fun cutoff =>
        hubsFrom G.nodes pr cutoff)))

/-- Whether an exception was raised. -/
def isErr {α : Type} (r : Except Err α) : Bool :=
  match r with
  | .error _ => true
  | .ok _ => false

/-! ### Generic list and dictionary lemmas -/

theorem contains_iff {α : Type} [DecidableEq α] (l : List α) (a : α) :
    l.contains a = true ↔ a ∈ l := by
  simp [List.contains]

theorem lookup_none_iff {α : Type} (l : List (ℕ × α)) (k : ℕ) :
    l.lookup k = none ↔ k ∉ l.map Prod.fst := by
  induction l with
  | nil => simp
  | cons p t ih =>
    rcases p with ⟨k', b⟩
    by_cases hk : k = k'
    · subst hk
      simp [List.lookup_cons]
    · have hb : (k == k') = false := beq_eq_false_iff_ne.mpr hk
      simp only [List.lookup_cons, hb, List.map_cons, List.mem_cons]
      rw [ih]
      simp [hk]

theorem lookup_eq_some_mem {α : Type} {l : List (ℕ × α)} {k : ℕ} {v : α}
    (h : l.lookup k = some v) : (k, v) ∈ l := by
  induction l with
  | nil => simp at h
  | cons p t ih =>
    rcases p with ⟨k', b⟩
    by_cases hk : k = k'
    · subst hk
      rw [List.lookup_cons_self] at h
      simp [Option.some_inj.mp h]
    · have hb : (k == k') = false := beq_eq_false_iff_ne.mpr hk
      simp only [List.lookup_cons, hb] at h
      exact List.mem_cons_of_mem _ (ih h)

theorem lookup_eq_some_iff_of_nodup {α : Type} {l : List (ℕ × α)}
    (hnd : (l.map Prod.fst).Nodup) (k : ℕ) (v : α) :
    l.lookup k = some v ↔ (k, v) ∈ l := by
  refine ⟨lookup_eq_some_mem, fun hm => ?_⟩
  induction l with
  | nil => simp at hm
  | cons p t ih =>
    rcases p with ⟨k', b⟩
    rw [List.map_cons] at hnd
    have hnd1 : k' ∉ t.map Prod.fst := (List.nodup_cons.mp hnd).1
    have hnd2 : (t.map Prod.fst).Nodup := (List.nodup_cons.mp hnd).2
    rcases List.mem_cons.mp hm with hm' | hm'
    · have h1 : k = k' := congrArg Prod.fst hm'
      have h2 : v = b := congrArg Prod.snd hm'
      subst h1
      subst h2
      exact List.lookup_cons_self
    · have hk : k ≠ k' := by
        intro hk
        subst hk
        exact hnd1 (List.mem_map_of_mem Prod.fst hm')
      have hb : (k == k') = false := beq_eq_false_iff_ne.mpr hk
      simp only [List.lookup_cons, hb]
      exact ih hnd2 hm'

theorem lookup_map_self {α : Type} (nodes : List ℕ) (f : ℕ → α)
    (hnd : nodes.Nodup) {v : ℕ} (hv : v ∈ nodes) :
    (nodes.map (fun s => (s, f s))).lookup v = some (f v) := by
  have hkeys : (nodes.map (fun s => (s, f s))).map Prod.fst = nodes := by
    rw [List.map_map]
    exact List.map_id'' (fun x => rfl) nodes
  rw [lookup_eq_some_iff_of_nodup (by rw [hkeys]; exact hnd)]
  exact List.mem_map_of_mem _ hv

theorem dictSet_map_fst_of_mem {α : Type} {l : List (ℕ × α)} {k : ℕ} (a : α)
    (h : k ∈ l.map Prod.fst) : (dictSet l k a).map Prod.fst = l.map Prod.fst := by
  induction l with
  | nil => simp at h
  | cons p t ih =>
    by_cases hk : p.1 = k
    · simp [dictSet, hk]
    · simp only [List.map_cons, List.mem_cons] at h
      rcases h with h | h
      · exact absurd h.symm hk
      · simp [dictSet, hk, ih h]

theorem mem_dictSet {α : Type} {l : List (ℕ × α)} {k : ℕ} {a : α} {q : ℕ × α}
    (h : q ∈ dictSet l k a) : q = (k, a) ∨ q ∈ l := by
  induction l with
  | nil => simpa [dictSet] using h
  | cons p t ih =>
    by_cases hk : p.1 = k
    · simp only [dictSet, if_pos hk, List.mem_cons] at h
      rcases h with h | h
      · exact Or.inl h
      · exact Or.inr (List.mem_cons_of_mem _ h)
    · simp only [dictSet, if_neg hk, List.mem_cons] at h
      rcases h with h | h
      · exact Or.inr (by simp [h])
      · rcases ih h with h2 | h2
        · exact Or.inl h2
        · exact Or.inr (List.mem_cons_of_mem _ h2)

theorem lookup_dictSet_self {α : Type} (l : List (ℕ × α)) (k : ℕ) (a : α) :
    (dictSet l k a).lookup k = some a := by
  induction l with
  | nil => simp [dictSet]
  | cons p t ih =>
    by_cases hk : p.1 = k
    · simp [dictSet, hk]
    · have hb : (k == p.1) = false := beq_eq_false_iff_ne.mpr (Ne.symm hk)
      rcases p with ⟨k2, b⟩
      simp only [dictSet, if_neg hk, List.lookup_cons] at hb ⊢
      rw [hb]
      exact ih

theorem lookup_dictSet_ne {α : Type} (l : List (ℕ × α)) (k kk : ℕ) (a : α) (hk : kk ≠ k) :
    (dictSet l k a).lookup kk = l.lookup kk := by
  have hb : (kk == k) = false := beq_eq_false_iff_ne.mpr hk
  induction l with
  | nil => simp [dictSet, List.lookup_cons, hb]
  | cons p t ih =>
    rcases p with ⟨k2, b⟩
    by_cases hp : k2 = k
    · subst hp
      simp [dictSet, List.lookup_cons, hb]
    · simp only [dictSet, if_neg hp, List.lookup_cons, ih]

/-! ### Fold and mapM machinery over the error monad -/

@[simp] theorem ok_bind {α β : Type} (a : α) (f : α → Except Err β) :
    (Except.ok a : Except Err α) >>= f = f a := rfl

@[simp] theorem error_bind {α β : Type} (e : Err) (f : α → Except Err β) :
    (Except.error e : Except Err α) >>= f = Except.error e := rfl

@[simp] theorem pure_eq_ok {α : Type} (a : α) : (pure a : Except Err α) = Except.ok a := rfl

@[simp] theorem map_ok {α β : Type} (a : α) (f : α → β) :
    (Except.ok a : Except Err α).map f = Except.ok (f a) := rfl

@[simp] theorem map_error {α β : Type} (e : Err) (f : α → β) :
    (Except.error e : Except Err α).map f = Except.error e := rfl

@[simp] theorem bindE_ok {α β : Type} (a : α) (f : α → Except Err β) :
    (Except.ok a : Except Err α).bind f = f a := rfl

@[simp] theorem bindE_error {α β : Type} (e : Err) (f : α → Except Err β) :
    (Except.error e : Except Err α).bind f = Except.error e := rfl

theorem exceptFold_inv {σ α : Type} (P : σ → Prop) (f : σ → α → Except Err σ) (l : List α) :
    ∀ s0 sf, P s0 → (∀ s a sn, P s → a ∈ l → f s a = .ok sn → P sn) →
      l.foldlM f s0 = .ok sf → P sf := by
  induction l with
  | nil =>
    intro s0 sf h0 _ hf
    simp only [List.foldlM_nil, pure_eq_ok, Except.ok.injEq] at hf
    rw [← hf]
    exact h0
  | cons a t ih =>
    intro s0 sf h0 hstep hf
    simp only [List.foldlM_cons] at hf
    rcases hs : f s0 a with e | s1
    · rw [hs] at hf
      simp at hf
    · rw [hs, ok_bind] at hf
      exact ih s1 sf (hstep s0 a s1 h0 (List.mem_cons_self a t) hs)
        (fun s b sn hP hb => hstep s b sn hP (List.mem_cons_of_mem a hb)) hf

theorem exceptFold_ok {σ α : Type} (P : σ → Prop) (f : σ → α → Except Err σ) (l : List α) :
    ∀ s0, P s0 → (∀ s a, P s → a ∈ l → ∃ sn, f s a = .ok sn ∧ P sn) →
      ∃ sf, l.foldlM f s0 = .ok sf ∧ P sf := by
  induction l with
  | nil =>
    intro s0 h0 _
    exact ⟨s0, rfl, h0⟩
  | cons a t ih =>
    intro s0 h0 hstep
    rcases hstep s0 a h0 (List.mem_cons_self a t) with ⟨s1, hs1, hP1⟩
    rcases ih s1 hP1 (fun s b hP hb => hstep s b hP (List.mem_cons_of_mem a hb)) with
      ⟨sf, hsf, hPf⟩
    exact ⟨sf, by simp only [List.foldlM_cons, hs1, ok_bind]; exact hsf, hPf⟩

theorem mapM_ok_forall₂ {α β : Type} (f : α → Except Err β) :
    ∀ (l : List α) (bs : List β), l.mapM f = .ok bs →
      List.Forall₂ (fun a b => f a = .ok b) l bs := by
  intro l
  induction l with
  | nil =>
    intro bs h
    simp only [List.mapM_nil, pure_eq_ok, Except.ok.injEq] at h
    rw [← h]
    exact List.Forall₂.nil
  | cons a t ih =>
    intro bs h
    rw [List.mapM_cons] at h
    rcases ha : f a with e | b
    · rw [ha, error_bind] at h
      simp at h
    · rw [ha, ok_bind] at h
      rcases ht : t.mapM f with e | bt
      · rw [ht, error_bind] at h
        simp at h
      · rw [ht, ok_bind] at h
        simp only [pure_eq_ok, Except.ok.injEq] at h
        rw [← h]
        exact List.Forall₂.cons ha (ih bt ht)

theorem mapM_ok_of_all_ok {α β : Type} (f : α → Except Err β) :
    ∀ (l : List α), (∀ a ∈ l, ∃ b, f a = .ok b) → ∃ bs, l.mapM f = .ok bs := by
  intro l
  induction l with
  | nil => exact fun _ => ⟨[], rfl⟩
  | cons a t ih =>
    intro h
    rcases h a (List.mem_cons_self a t) with ⟨b, hb⟩
    rcases ih (fun x hx => h x (List.mem_cons_of_mem a hx)) with ⟨bt, hbt⟩
    exact ⟨b :: bt, by rw [List.mapM_cons, hb, ok_bind, hbt, ok_bind]; rfl⟩

/-! ### Row-write lemmas -/

theorem applyWrites_nil (row : List ℚ) : applyWrites row [] = row := rfl

theorem applyWrites_cons (row : List ℚ) (cw : ℕ × ℚ) (t : List (ℕ × ℚ)) :
    applyWrites row (cw :: t) = applyWrites (row.set cw.1 cw.2) t := rfl

theorem applyWrites_length (ws : List (ℕ × ℚ)) :
    ∀ row, (applyWrites row ws).length = row.length := by
  induction ws with
  | nil => intro row; rfl
  | cons cw t ih =>
    intro row
    rw [applyWrites_cons, ih, List.length_set]

theorem applyWrites_getD_not_mem (ws : List (ℕ × ℚ)) (j : ℕ)
    (hj : j ∉ ws.map Prod.fst) : ∀ row, (applyWrites row ws).getD j 0 = row.getD j 0 := by
  induction ws with
  | nil => intro row; rfl
  | cons cw t ih =>
    intro row
    simp only [List.map_cons, List.mem_cons] at hj
    push_neg at hj
    rw [applyWrites_cons, ih hj.2]
    rcases Nat.lt_or_ge j row.length with hlt | hge
    · rw [List.getD_eq_getElem _ _ (by simpa using hlt),
        List.getD_eq_getElem _ _ hlt, List.getElem_set_ne (by exact fun h => hj.1 h.symm)]
    · rw [List.getD_eq_default _ _ (by simpa using hge), List.getD_eq_default _ _ hge]

theorem applyWrites_getD_mem (ws : List (ℕ × ℚ)) (j : ℕ) (w : ℚ)
    (hnd : (ws.map Prod.fst).Nodup) (hmem : (j, w) ∈ ws) :
    ∀ row, j < row.length → (applyWrites row ws).getD j 0 = w := by
  induction ws with
  | nil => simp at hmem
  | cons cw t ih =>
    intro row hj
    rw [List.map_cons, List.nodup_cons] at hnd
    rcases List.mem_cons.mp hmem with hm | hm
    · rw [← hm] at hnd ⊢
      rw [applyWrites_cons, applyWrites_getD_not_mem t j hnd.1]
      rw [List.getD_eq_getElem _ _ (by simpa using hj), List.getElem_set_self (by simpa using hj)]
    · rw [applyWrites_cons]
      exact ih hnd.2 hm _ (by simpa using hj)

theorem getD_replicate_zero (n j : ℕ) : (List.replicate n (0 : ℚ)).getD j 0 = 0 := by
  rcases Nat.lt_or_ge j n with h | h
  · rw [List.getD_eq_getElem _ _ (by simpa using h), List.getElem_replicate]
  · rw [List.getD_eq_default _ _ (by simpa using h)]

theorem writeRow_ok_len (numHyper v : ℕ) (ws : List (ℕ × ℚ)) :
    ∀ M Mf, writeRow numHyper v M ws = .ok Mf → Mf.length = M.length := by
  induction ws with
  | nil =>
    intro M Mf h
    simp only [writeRow, List.foldlM_nil, pure_eq_ok, Except.ok.injEq] at h
    rw [← h]
  | cons cw t ih =>
    intro M Mf h
    simp only [writeRow, List.foldlM_cons] at h
    by_cases hb : v < M.length ∧ cw.1 < numHyper
    · rw [if_pos hb, ok_bind] at h
      have := ih _ _ h
      rw [this, List.length_set]
    · rw [if_neg hb] at h
      simp at h

theorem writeRow_ok_ne (numHyper v : ℕ) (ws : List (ℕ × ℚ)) (u : ℕ) (hu : u ≠ v) :
    ∀ M Mf, writeRow numHyper v M ws = .ok Mf → Mf.getD u [] = M.getD u [] := by
  induction ws with
  | nil =>
    intro M Mf h
    simp only [writeRow, List.foldlM_nil, pure_eq_ok, Except.ok.injEq] at h
    rw [← h]
  | cons cw t ih =>
    intro M Mf h
    simp only [writeRow, List.foldlM_cons] at h
    by_cases hb : v < M.length ∧ cw.1 < numHyper
    · rw [if_pos hb, ok_bind] at h
      rw [ih _ _ h]
      rcases Nat.lt_or_ge u M.length with hlt | hge
      · rw [List.getD_eq_getElem _ _ (by simpa using hlt),
          List.getD_eq_getElem _ _ hlt, List.getElem_set_ne (by exact fun hh => hu hh.symm)]
      · rw [List.getD_eq_default _ _ (by simpa using hge), List.getD_eq_default _ _ hge]
    · rw [if_neg hb] at h
      simp at h

theorem writeRow_ok_self (numHyper v : ℕ) (ws : List (ℕ × ℚ)) :
    ∀ M Mf, writeRow numHyper v M ws = .ok Mf → v < M.length →
      Mf.getD v [] = applyWrites (M.getD v []) ws := by
  induction ws with
  | nil =>
    intro M Mf h _
    simp only [writeRow, List.foldlM_nil, pure_eq_ok, Except.ok.injEq] at h
    rw [← h, applyWrites_nil]
  | cons cw t ih =>
    intro M Mf h hv
    simp only [writeRow, List.foldlM_cons] at h
    by_cases hb : v < M.length ∧ cw.1 < numHyper
    · rw [if_pos hb, ok_bind] at h
      rw [applyWrites_cons]
      have h1 := ih _ _ h (by rw [List.length_set]; exact hv)
      rw [h1, List.getD_eq_getElem _ _ (by simpa using hv),
        List.getElem_set_self (by simpa using hv), List.getD_eq_getElem _ _ (by simpa using hv)]
    · rw [if_neg hb] at h
      simp at h

theorem writeRow_cols_ok (numHyper v : ℕ) (ws : List (ℕ × ℚ)) :
    ∀ M Mf, writeRow numHyper v M ws = .ok Mf → ∀ cw ∈ ws, cw.1 < numHyper := by
  induction ws with
  | nil =>
    intro M Mf _ cw hcw
    simp at hcw
  | cons cw t ih =>
    intro M Mf h x hx
    simp only [writeRow, List.foldlM_cons] at h
    by_cases hb : v < M.length ∧ cw.1 < numHyper
    · rw [if_pos hb, ok_bind] at h
      rcases List.mem_cons.mp hx with hx' | hx'
      · rw [hx']
        exact hb.2
      · exact ih _ _ h x hx'
    · rw [if_neg hb] at h
      simp at h

/-! ### Incidence matrix assembly lemmas -/

theorem incidence_fold_len (numHyper : ℕ) (rw : ℕ → Except Err (List (ℕ × ℚ)))
    (nodes : List ℕ) :
    ∀ M0 M, nodes.foldlM (fun M v => (rw v).bind (writeRow numHyper v M)) M0 = .ok M →
      M.length = M0.length := by
  induction nodes with
  | nil =>
    intro M0 M h
    simp only [List.foldlM_nil, pure_eq_ok, Except.ok.injEq] at h
    rw [← h]
  | cons u t ih =>
    intro M0 M h
    simp only [List.foldlM_cons] at h
    rcases hr : rw u with e | ws
    · rw [hr] at h
      simp at h
    · rw [hr, bindE_ok] at h
      rcases hw : writeRow numHyper u M0 ws with e | M1
      · rw [hw] at h
        simp at h
      · rw [hw, ok_bind] at h
        rw [ih M1 M h, writeRow_ok_len numHyper u ws M0 M1 hw]

theorem incidence_fold_untouched (numHyper : ℕ) (rw : ℕ → Except Err (List (ℕ × ℚ)))
    (nodes : List ℕ) (v : ℕ) (hv : v ∉ nodes) :
    ∀ M0 M, nodes.foldlM (fun M v => (rw v).bind (writeRow numHyper v M)) M0 = .ok M →
      M.getD v [] = M0.getD v [] := by
  induction nodes with
  | nil =>
    intro M0 M h
    simp only [List.foldlM_nil, pure_eq_ok, Except.ok.injEq] at h
    rw [← h]
  | cons u t ih =>
    intro M0 M h
    simp only [List.foldlM_cons] at h
    rcases hr : rw u with e | ws
    · rw [hr] at h
      simp at h
    · rw [hr, bindE_ok] at h
      rcases hw : writeRow numHyper u M0 ws with e | M1
      · rw [hw] at h
        simp at h
      · rw [hw, ok_bind] at h
        have hvu : v ≠ u := fun hh => hv (hh ▸ List.mem_cons_self u t)
        rw [ih (fun hh => hv (List.mem_cons_of_mem u hh)) M1 M h,
          writeRow_ok_ne numHyper u ws v hvu M0 M1 hw]

theorem incidence_fold_row (numHyper : ℕ) (rw : ℕ → Except Err (List (ℕ × ℚ)))
    (nodes : List ℕ) (hnd : nodes.Nodup) (v : ℕ) (ws : List (ℕ × ℚ))
    (hv : v ∈ nodes) (hws : rw v = .ok ws) :
    ∀ M0 M, nodes.foldlM (fun M v => (rw v).bind (writeRow numHyper v M)) M0 = .ok M →
      v < M0.length → M.getD v [] = applyWrites (M0.getD v []) ws := by
  induction nodes with
  | nil => simp at hv
  | cons u t ih =>
    intro M0 M h hlen
    simp only [List.foldlM_cons] at h
    rcases List.mem_cons.mp hv with hv' | hv'
    · subst hv'
      rw [hws, bindE_ok] at h
      rcases hw : writeRow numHyper v M0 ws with e | M1
      · rw [hw] at h
        simp at h
      · rw [hw, ok_bind] at h
        have hvt : v ∉ t := (List.nodup_cons.mp hnd).1
        rw [incidence_fold_untouched numHyper rw t v hvt M1 M h,
          writeRow_ok_self numHyper v ws M0 M1 hw hlen]
    · rcases hr : rw u with e | wsu
      · rw [hr] at h
        simp at h
      · rw [hr, bindE_ok] at h
        rcases hw : writeRow numHyper u M0 wsu with e | M1
        · rw [hw] at h
          simp at h
        · rw [hw, ok_bind] at h
          have hvu : v ≠ u := by
            intro hh
            subst hh
            exact (List.nodup_cons.mp hnd).1 hv'
          rw [ih (List.nodup_cons.mp hnd).2 hv' M1 M h
            (by rw [writeRow_ok_len numHyper u wsu M0 M1 hw]; exact hlen),
            writeRow_ok_ne numHyper u wsu v hvu M0 M1 hw]

theorem incidenceFrom_len (numNodes numHyper : ℕ) (nodes : List ℕ)
    (rw : ℕ → Except Err (List (ℕ × ℚ))) (M : List (List ℚ))
    (h : incidenceFrom numNodes numHyper nodes rw = .ok M) : M.length = numNodes := by
  have := incidence_fold_len numHyper rw nodes _ M h
  simpa using this

theorem incidenceFrom_row (numNodes numHyper : ℕ) (nodes : List ℕ)
    (rw : ℕ → Except Err (List (ℕ × ℚ))) (hnd : nodes.Nodup) (v : ℕ) (ws : List (ℕ × ℚ))
    (hv : v ∈ nodes) (hws : rw v = .ok ws) (hvn : v < numNodes) (M : List (List ℚ))
    (h : incidenceFrom numNodes numHyper nodes rw = .ok M) :
    M.getD v [] = applyWrites (List.replicate numHyper 0) ws := by
  have h1 := incidence_fold_row numHyper rw nodes hnd v ws hv hws _ M h (by simpa using hvn)
  rw [h1, List.getD_eq_getElem _ _ (by simpa using hvn), List.getElem_replicate]

/-! ### Graph construction invariants -/

/-- Structural invariant of the constructed networkx graph: the adjacency
keys are the node list, nodes are distinct, and every stored edge payload
is a singleton `"w"` dictionary. -/
def GraphWF (G : Graph) : Prop :=
  G.adj.map Prod.fst = G.nodes ∧ G.nodes.Nodup ∧
    ∀ p ∈ G.adj, ∀ q ∈ p.2, ∃ w, q.2 = [(wKey, w)]

theorem graphWF_empty : GraphWF (Graph.mk [] [] []) := by
  refine ⟨rfl, List.nodup_nil, ?_⟩
  intro p hp
  simp at hp

theorem mem_keys_of_lookup_isSome {α : Type} {l : List (ℕ × α)} {k : ℕ}
    (h : (l.lookup k).isSome = true) : k ∈ l.map Prod.fst := by
  by_contra hk
  rw [(lookup_none_iff l k).mpr hk] at h
  simp at h

theorem graphWF_addNode {G : Graph} (h : GraphWF G) (v : ℕ) : GraphWF (addNode G v) := by
  rcases h with ⟨hkeys, hnd, hdata⟩
  unfold addNode
  by_cases hs : (G.adj.lookup v).isSome = true
  · rw [if_pos hs]
    exact ⟨hkeys, hnd, hdata⟩
  · rw [if_neg hs]
    have hv : v ∉ G.nodes := by
      rw [← hkeys]
      exact (lookup_none_iff G.adj v).mp (Option.not_isSome_iff_eq_none.mp hs)
    refine ⟨?_, ?_, ?_⟩
    · simp [hkeys]
    · simp [List.nodup_append, hnd, hv]
    · intro p hp q hq
      rcases List.mem_append.mp hp with hp' | hp'
      · exact hdata p hp' q hq
      · simp at hp'
        rw [hp'] at hq
        simp at hq

theorem graphWF_setNodeW {G : Graph} (h : GraphWF G) (v : ℕ) (w : ℚ) :
    GraphWF (setNodeW G v w) := h

theorem mem_keys_addNode (G : Graph) (v : ℕ) : v ∈ (addNode G v).adj.map Prod.fst := by
  unfold addNode
  by_cases hs : (G.adj.lookup v).isSome = true
  · rw [if_pos hs]
    exact mem_keys_of_lookup_isSome hs
  · rw [if_neg hs]
    simp

theorem keys_addNode_mono (G : Graph) (u v : ℕ) (h : u ∈ G.adj.map Prod.fst) :
    u ∈ (addNode G v).adj.map Prod.fst := by
  unfold addNode
  by_cases hs : (G.adj.lookup v).isSome = true
  · rw [if_pos hs]
    exact h
  · rw [if_neg hs]
    simp [h]

theorem setAdjEntry_keys (adj : Adj) (u v : ℕ) (d : EdgeData) (hu : u ∈ adj.map Prod.fst) :
    (setAdjEntry adj u v d).map Prod.fst = adj.map Prod.fst := by
  unfold setAdjEntry
  exact dictSet_map_fst_of_mem _ hu

theorem setAdjEntry_data {adj : Adj} {u v : ℕ} {d : EdgeData}
    (hdata : ∀ p ∈ adj, ∀ q ∈ p.2, ∃ w, q.2 = [(wKey, w)]) (hd : ∃ w, d = [(wKey, w)]) :
    ∀ p ∈ setAdjEntry adj u v d, ∀ q ∈ p.2, ∃ w, q.2 = [(wKey, w)] := by
  intro p hp q hq
  rcases mem_dictSet hp with hp' | hp'
  · rw [hp'] at hq
    simp only at hq
    rcases mem_dictSet hq with hq' | hq'
    · rw [hq']
      exact hd
    · rcases hlk : adj.lookup u with hnone | nbrs
      · rw [hlk] at hq'
        simp at hq'
      · rw [hlk] at hq'
        exact hdata (u, nbrs) (lookup_eq_some_mem hlk) q hq'
  · exact hdata p hp' q hq

theorem graphWF_addEdge {G : Graph} (h : GraphWF G) (u v : ℕ) (w : ℚ) :
    GraphWF (addEdge G u v w) := by
  have h1 : GraphWF (addNode (addNode G u) v) := graphWF_addNode (graphWF_addNode h u) v
  rcases h1 with ⟨hkeys, hnd, hdata⟩
  have hu : u ∈ (addNode (addNode G u) v).adj.map Prod.fst :=
    keys_addNode_mono (addNode G u) u v (mem_keys_addNode G u)
  have hv : v ∈ (addNode (addNode G u) v).adj.map Prod.fst := mem_keys_addNode (addNode G u) v
  unfold addEdge
  refine ⟨?_, hnd, ?_⟩
  · rw [setAdjEntry_keys _ v u _ (by rw [setAdjEntry_keys _ u v _ hu]; exact hv),
      setAdjEntry_keys _ u v _ hu]
    exact hkeys
  · exact setAdjEntry_data (setAdjEntry_data hdata ⟨w, rfl⟩) ⟨w, rfl⟩

theorem graphOf_wf (input : Input) (cfg : Config) (G : Graph)
    (h : graphOf input cfg = .ok G) : GraphWF G := by
  unfold graphOf at h
  rcases h1 : (List.range (nodeAttrOf input cfg).rows.length).foldlM
      (nodeStep (nodeAttrOf input cfg).rows) (Graph.mk [] [] []) with e | G1
  · rw [h1] at h
    simp at h
  · rw [h1, bindE_ok] at h
    have hG1 : GraphWF G1 := by
      refine exceptFold_inv GraphWF _ _ _ G1 graphWF_empty ?_ h1
      intro s a sn hP _ hstep
      unfold nodeStep at hstep
      rcases hh : headE ((nodeAttrOf input cfg).rows.getD a []) with e | ww
      · rw [hh] at hstep
        simp at hstep
      · rw [hh, map_ok] at hstep
        rw [← show setNodeW (addNode s a) a ww = sn from by injection hstep]
        exact graphWF_setNodeW (graphWF_addNode hP a) a ww
    refine exceptFold_inv GraphWF _ _ G1 G hG1 ?_ h
    intro s a sn hP _ hstep
    unfold edgeStep at hstep
    rcases hh : headE ((edgeAttrOf input cfg).rows.getD a []) with e | ww
    · rw [hh] at hstep
      simp at hstep
    · rw [hh, map_ok] at hstep
      rw [← show _ = sn from by injection hstep]
      exact graphWF_addEdge hP _ _ ww

/-! ### Breadth-first search lemmas -/

theorem bfs_fold_mem (adj : Adj) (level : ℕ) (lvl : List ℕ) :
    ∀ (acc : List (ℕ × ℚ) × List ℕ) (p : ℕ × ℚ),
      p ∈ (lvl.foldl (fun acc v =>
          if (acc.1.lookup v).isSome then acc
          else (acc.1 ++ [(v, (level : ℚ))], dictInsertKeys acc.2 (adjKeys adj v))) acc).1 →
        p ∈ acc.1 ∨ p.2 = (level : ℚ) := by
  induction lvl with
  | nil =>
    intro acc p hp
    exact Or.inl hp
  | cons v t ih =>
    intro acc p hp
    rw [List.foldl_cons] at hp
    by_cases hs : (acc.1.lookup v).isSome = true
    · rw [if_pos hs] at hp
      exact ih acc p hp
    · rw [if_neg hs] at hp
      rcases ih _ p hp with hm | hm
      · rcases List.mem_append.mp hm with hm' | hm'
        · exact Or.inl hm'
        · simp at hm'
          rw [hm']
          exact Or.inr rfl
      · exact Or.inr hm

theorem bfs_fold_nodup (adj : Adj) (level : ℕ) (lvl : List ℕ) :
    ∀ (acc : List (ℕ × ℚ) × List ℕ), (acc.1.map Prod.fst).Nodup →
      ((lvl.foldl (fun acc v =>
          if (acc.1.lookup v).isSome then acc
          else (acc.1 ++ [(v, (level : ℚ))], dictInsertKeys acc.2 (adjKeys adj v))) acc).1.map
        Prod.fst).Nodup := by
  induction lvl with
  | nil =>
    intro acc h
    exact h
  | cons v t ih =>
    intro acc h
    rw [List.foldl_cons]
    by_cases hs : (acc.1.lookup v).isSome = true
    · rw [if_pos hs]
      exact ih acc h
    · rw [if_neg hs]
      refine ih _ ?_
      have hv : v ∉ acc.1.map Prod.fst :=
        (lookup_none_iff acc.1 v).mp (Option.not_isSome_iff_eq_none.mp hs)
      simp [List.nodup_append, h, hv]

theorem bfsLevelPass_mem (adj : Adj) (seen : List (ℕ × ℚ)) (lvl : List ℕ) (level : ℕ)
    (p : ℕ × ℚ) (hp : p ∈ (bfsLevelPass adj seen lvl level).1) :
    p ∈ seen ∨ p.2 = (level : ℚ) :=
  bfs_fold_mem adj level lvl (seen, []) p hp

theorem bfsLevelPass_nodup (adj : Adj) (seen : List (ℕ × ℚ)) (lvl : List ℕ) (level : ℕ)
    (h : (seen.map Prod.fst).Nodup) :
    ((bfsLevelPass adj seen lvl level).1.map Prod.fst).Nodup :=
  bfs_fold_nodup adj level lvl (seen, []) h

theorem bfsLoop_mem (adj : Adj) (s : ℕ) :
    ∀ (fuel : ℕ) (seen : List (ℕ × ℚ)) (nextlevel : List ℕ) (level : ℕ),
      1 ≤ level → (∀ p ∈ seen, p.1 = s ∨ 1 ≤ p.2) →
      ∀ p ∈ bfsLoop adj fuel seen nextlevel level, p.1 = s ∨ 1 ≤ p.2 := by
  intro fuel
  induction fuel with
  | zero =>
    intro seen nextlevel level _ hseen p hp
    exact hseen p hp
  | succ fuel ih =>
    intro seen nextlevel level hlev hseen p hp
    rw [bfsLoop] at hp
    by_cases hne : nextlevel = []
    · rw [if_pos hne] at hp
      exact hseen p hp
    · rw [if_neg hne] at hp
      refine ih _ _ (level + 1) (Nat.le_succ_of_le hlev) ?_ p hp
      intro q hq
      rcases bfsLevelPass_mem adj seen nextlevel level q hq with hm | hm
      · exact hseen q hm
      · right
        rw [hm]
        exact_mod_cast hlev

theorem bfsLoop_nodup (adj : Adj) :
    ∀ (fuel : ℕ) (seen : List (ℕ × ℚ)) (nextlevel : List ℕ) (level : ℕ),
      (seen.map Prod.fst).Nodup →
      ((bfsLoop adj fuel seen nextlevel level).map Prod.fst).Nodup := by
  intro fuel
  induction fuel with
  | zero =>
    intro seen nextlevel level h
    exact h
  | succ fuel ih =>
    intro seen nextlevel level h
    rw [bfsLoop]
    by_cases hne : nextlevel = []
    · rw [if_pos hne]
      exact h
    · rw [if_neg hne]
      exact ih _ _ _ (bfsLevelPass_nodup adj seen nextlevel level h)

theorem bfs_start (adj : Adj) (s : ℕ) :
    singleSourceShortestPathLength adj s =
      bfsLoop adj (adj.length + 1) [(s, 0)] (dictInsertKeys [] (adjKeys adj s)) 1 := by
  unfold singleSourceShortestPathLength
  rw [show adj.length + 2 = (adj.length + 1) + 1 from rfl, bfsLoop]
  rw [if_neg (by simp)]
  rfl

theorem bfs_pos (adj : Adj) (s : ℕ) (p : ℕ × ℚ)
    (hp : p ∈ singleSourceShortestPathLength adj s) : p.1 = s ∨ 1 ≤ p.2 := by
  rw [bfs_start] at hp
  refine bfsLoop_mem adj s (adj.length + 1) [(s, 0)] _ 1 le_rfl ?_ p hp
  intro q hq
  simp at hq
  rw [hq]
  exact Or.inl rfl

theorem bfs_keys_nodup (adj : Adj) (s : ℕ) :
    ((singleSourceShortestPathLength adj s).map Prod.fst).Nodup := by
  rw [bfs_start]
  exact bfsLoop_nodup adj _ [(s, 0)] _ 1 (by simp)

/-! ### Dijkstra lemmas -/

theorem minEntry_mem (t : List (ℚ × ℕ × ℕ)) :
    ∀ h : ℚ × ℕ × ℕ, minEntry h t ∈ h :: t := by
  induction t with
  | nil =>
    intro h
    simp [minEntry]
  | cons x t ih =>
    intro h
    unfold minEntry at ih ⊢
    rw [List.foldl_cons]
    by_cases hx : heapLt x h
    · rw [if_pos hx]
      exact List.mem_cons_of_mem h (ih x)
    · rw [if_neg hx]
      rcases List.mem_cons.mp (ih h) with hm | hm
      · rw [hm]
        simp
      · exact List.mem_cons_of_mem h (List.mem_cons_of_mem x hm)

theorem popMin_mem {heap : List (ℚ × ℕ × ℕ)} {entry : ℚ × ℕ × ℕ} {rest : List (ℚ × ℕ × ℕ)}
    (h : popMin heap = some (entry, rest)) : entry ∈ heap ∧ ∀ e ∈ rest, e ∈ heap := by
  rcases heap with _ | ⟨hd, t⟩
  · simp [popMin] at h
  · simp only [popMin, Option.some.injEq, Prod.mk.injEq] at h
    constructor
    · rw [← h.1]
      exact minEntry_mem t hd
    · intro e he
      rw [← h.2] at he
      exact List.mem_of_mem_erase he

theorem relaxEdges_heap_inv (s : ℕ) (dist : List (ℕ × ℚ)) (d : ℚ)
    (nbrs : List (ℕ × EdgeData)) (st st' : DijkstraState)
    (hok : relaxEdges dist d nbrs st = .ok st') (hd : 0 ≤ d)
    (hw : ∀ q ∈ nbrs, 0 < dijkstraWeight q.2)
    (hheap : ∀ e ∈ st.2.1, 0 ≤ e.1 ∧ (e.2.2 = s ∨ 0 < e.1)) :
    ∀ e ∈ st'.2.1, 0 ≤ e.1 ∧ (e.2.2 = s ∨ 0 < e.1) := by
  refine exceptFold_inv (fun st => ∀ e ∈ st.2.1, 0 ≤ e.1 ∧ (e.2.2 = s ∨ 0 < e.1)) _ nbrs st st'
    hheap ?_ hok
  intro t a tn hP ha hstep
  have hvu : 0 < d + dijkstraWeight a.2 := by
    have := hw a ha
    linarith
  have hpush : ∀ e ∈ t.2.1 ++ [(d + dijkstraWeight a.2, t.2.2, a.1)],
      0 ≤ e.1 ∧ (e.2.2 = s ∨ 0 < e.1) := by
    intro e he
    rcases List.mem_append.mp he with he' | he'
    · exact hP e he'
    · simp at he'
      rw [he']
      exact ⟨le_of_lt hvu, Or.inr hvu⟩
  rcases hlk : dist.lookup a.1 with hh | du
  · rcases hlk2 : t.1.lookup a.1 with hh2 | su
    · simp only [hlk, hlk2, Except.ok.injEq] at hstep
      rw [← hstep]
      exact hpush
    · by_cases hlt : d + dijkstraWeight a.2 < su
      · simp only [hlk, hlk2, if_pos hlt, Except.ok.injEq] at hstep
        rw [← hstep]
        exact hpush
      · simp only [hlk, hlk2, if_neg hlt, Except.ok.injEq] at hstep
        rw [← hstep]
        exact hP
  · by_cases hlt : d + dijkstraWeight a.2 < du
    · simp only [hlk, if_pos hlt] at hstep
      exact Except.noConfusion hstep
    · simp only [hlk, if_neg hlt, Except.ok.injEq] at hstep
      rw [← hstep]
      exact hP

theorem relaxEdges_dist_free (dist : List (ℕ × ℚ)) (d : ℚ) (nbrs : List (ℕ × EdgeData)) :
    ∀ (st : DijkstraState) (st' : DijkstraState), relaxEdges dist d nbrs st = .ok st' → True :=
  fun _ _ _ => trivial

theorem dijkstraLoop_pos (adj : Adj) (s : ℕ)
    (hw : ∀ p ∈ adj, ∀ q ∈ p.2, 0 < dijkstraWeight q.2) :
    ∀ (fuel : ℕ) (dist seen : List (ℕ × ℚ)) (heap : List (ℚ × ℕ × ℕ)) (counter : ℕ)
      (res : List (ℕ × ℚ)),
      (∀ p ∈ dist, p.1 = s ∨ 0 < p.2) →
      (∀ e ∈ heap, 0 ≤ e.1 ∧ (e.2.2 = s ∨ 0 < e.1)) →
      dijkstraLoop adj fuel dist seen heap counter = .ok res →
      ∀ p ∈ res, p.1 = s ∨ 0 < p.2 := by
  intro fuel
  induction fuel with
  | zero =>
    intro dist seen heap counter res hdist _ h
    simp only [dijkstraLoop, Except.ok.injEq] at h
    rw [← h]
    exact hdist
  | succ fuel ih =>
    intro dist seen heap counter res hdist hheap h
    rw [dijkstraLoop] at h
    split at h
    · simp only [Except.ok.injEq] at h
      rw [← h]
      exact hdist
    · rename_i entry rest hpop
      have hmem := popMin_mem hpop
      have hrest : ∀ e ∈ rest, 0 ≤ e.1 ∧ (e.2.2 = s ∨ 0 < e.1) :=
        fun e he => hheap e (hmem.2 e he)
      have hentry := hheap entry hmem.1
      split at h
      · exact ih dist seen rest counter res hdist hrest h
      · split at h
        · exact Except.noConfusion h
        · rename_i st hrel
          have hdist2 : ∀ p ∈ dist ++ [(entry.2.2, entry.1)], p.1 = s ∨ 0 < p.2 := by
            intro p hp
            rcases List.mem_append.mp hp with hp' | hp'
            · exact hdist p hp'
            · simp at hp'
              rw [hp']
              exact hentry.2
          have hwnbrs : ∀ q ∈ (adj.lookup entry.2.2).getD [], 0 < dijkstraWeight q.2 := by
            rcases hlk : adj.lookup entry.2.2 with hnone2 | nbrs
            · intro q hq
              simp at hq
            · intro q hq
              simp only [Option.getD_some] at hq
              exact hw (entry.2.2, nbrs) (lookup_eq_some_mem hlk) q hq
          have hst := relaxEdges_heap_inv s (dist ++ [(entry.2.2, entry.1)]) entry.1
            ((adj.lookup entry.2.2).getD []) (seen, rest, counter) st hrel hentry.1
            hwnbrs hrest
          exact ih _ st.1 st.2.1 st.2.2 res hdist2 hst h

theorem dijkstraLoop_nodup (adj : Adj) :
    ∀ (fuel : ℕ) (dist seen : List (ℕ × ℚ)) (heap : List (ℚ × ℕ × ℕ)) (counter : ℕ)
      (res : List (ℕ × ℚ)),
      (dist.map Prod.fst).Nodup →
      dijkstraLoop adj fuel dist seen heap counter = .ok res →
      (res.map Prod.fst).Nodup := by
  intro fuel
  induction fuel with
  | zero =>
    intro dist seen heap counter res hdist h
    simp only [dijkstraLoop, Except.ok.injEq] at h
    rw [← h]
    exact hdist
  | succ fuel ih =>
    intro dist seen heap counter res hdist h
    rw [dijkstraLoop] at h
    split at h
    · simp only [Except.ok.injEq] at h
      rw [← h]
      exact hdist
    · rename_i entry rest hpop
      split at h
      · exact ih dist seen rest counter res hdist h
      · rename_i hsm
        split at h
        · exact Except.noConfusion h
        · rename_i st hrel
          refine ih _ st.1 st.2.1 st.2.2 res ?_ h
          have hv : entry.2.2 ∉ dist.map Prod.fst :=
            (lookup_none_iff dist entry.2.2).mp (Option.not_isSome_iff_eq_none.mp (by simpa using hsm))
          simp [List.nodup_append, hdist, hv]

theorem dijkstra_pos (adj : Adj) (s : ℕ)
    (hw : ∀ p ∈ adj, ∀ q ∈ p.2, 0 < dijkstraWeight q.2) (res : List (ℕ × ℚ))
    (h : singleSourceDijkstraPathLength adj s = .ok res) :
    ∀ p ∈ res, p.1 = s ∨ 0 < p.2 := by
  refine dijkstraLoop_pos adj s hw (dijkstraFuel adj) [] [(s, 0)] [(0, 0, s)] 1 res ?_ ?_ h
  · intro p hp
    simp at hp
  · intro e he
    simp at he
    rw [he]
    exact ⟨le_rfl, Or.inl rfl⟩

theorem dijkstra_keys_nodup (adj : Adj) (s : ℕ) (res : List (ℕ × ℚ))
    (h : singleSourceDijkstraPathLength adj s = .ok res) : (res.map Prod.fst).Nodup :=
  dijkstraLoop_nodup adj (dijkstraFuel adj) [] [(s, 0)] [(0, 0, s)] 1 res (by simp) h

/-! ### Forall₂ helpers -/

theorem forall₂_mem_right {α β : Type} {R : α → β → Prop} {l : List α} {bs : List β}
    (h : List.Forall₂ R l bs) {b : β} (hb : b ∈ bs) : ∃ a ∈ l, R a b := by
  induction h with
  | nil => simp at hb
  | cons hab htail ih =>
    rcases List.mem_cons.mp hb with hb' | hb'
    · rw [← hb'] at hab
      exact ⟨_, List.mem_cons_self _ _, hab⟩
    · rcases ih hb' with ⟨a, ha, hR⟩
      exact ⟨a, List.mem_cons_of_mem _ ha, hR⟩

theorem forall₂_mem_left {α β : Type} {R : α → β → Prop} {l : List α} {bs : List β}
    (h : List.Forall₂ R l bs) {a : α} (ha : a ∈ l) : ∃ b ∈ bs, R a b := by
  induction h with
  | nil => simp at ha
  | cons hab htail ih =>
    rcases List.mem_cons.mp ha with ha' | ha'
    · rw [← ha'] at hab
      exact ⟨_, List.mem_cons_self _ _, hab⟩
    · rcases ih ha' with ⟨b, hb, hR⟩
      exact ⟨b, List.mem_cons_of_mem _ hb, hR⟩

theorem forall₂_lookup_row (f : ℕ → Except Err (List (ℕ × ℚ))) :
    ∀ (nodes : List ℕ) (sp : List (ℕ × List (ℕ × ℚ))),
      List.Forall₂ (fun s p => (f s).map (fun r => (s, r)) = .ok p) nodes sp →
      nodes.Nodup → ∀ v ∈ nodes, ∃ row, sp.lookup v = some row ∧ f v = .ok row := by
  intro nodes
  induction nodes with
  | nil =>
    intro sp _ _ v hv
    simp at hv
  | cons a t ih =>
    intro sp hf hnd v hv
    cases hf with
    | cons hab htail =>
      rename_i b bs
      rcases hfa : f a with e | r
      · rw [hfa, map_error] at hab
        exact Except.noConfusion hab
      · rw [hfa, map_ok] at hab
        have hb : b = (a, r) := by
          injection hab with hh
          rw [hh]
        subst hb
        rcases List.mem_cons.mp hv with hv' | hv'
        · subst hv'
          exact ⟨r, List.lookup_cons_self, hfa⟩
        · have hva : v ≠ a := by
            intro hh
            subst hh
            exact (List.nodup_cons.mp hnd).1 hv'
          have hbq : (v == a) = false := beq_eq_false_iff_ne.mpr hva
          rcases ih bs htail (List.nodup_cons.mp hnd).2 v hv' with ⟨row, h1, h2⟩
          refine ⟨row, ?_, h2⟩
          rw [List.lookup_cons]
          rw [hbq]
          exact h1

/-! ### Shortest-path table lemmas -/

theorem dijkstraWeight_wKey (w : ℚ) : dijkstraWeight [(wKey, w)] = 1 := by
  have hb : (weightKey == wKey) = false := by decide
  simp [dijkstraWeight, List.lookup_cons, hb]

theorem graph_dijkstraWeight_pos {G : Graph} (hwf : GraphWF G) :
    ∀ p ∈ G.adj, ∀ q ∈ p.2, 0 < dijkstraWeight q.2 := by
  intro p hp q hq
  rcases hwf.2.2 p hp q hq with ⟨w, hw⟩
  rw [hw, dijkstraWeight_wKey]
  norm_num

theorem spOf_row (G : Graph) (cfg : Config) (sp : List (ℕ × List (ℕ × ℚ)))
    (hsp : spOf G cfg = .ok sp) (hnd : G.nodes.Nodup) (v : ℕ) (hv : v ∈ G.nodes) :
    ∃ row, sp.lookup v = some row ∧
      (row = singleSourceShortestPathLength G.adj v ∨
        singleSourceDijkstraPathLength G.adj v = .ok row) := by
  unfold spOf at hsp
  by_cases hu : cfg.network_type = typeUnweighted
  · rw [if_pos hu] at hsp
    simp only [Except.ok.injEq] at hsp
    refine ⟨singleSourceShortestPathLength G.adj v, ?_, Or.inl rfl⟩
    rw [← hsp]
    exact lookup_map_self G.nodes _ hnd hv
  · rw [if_neg hu] at hsp
    by_cases hw : cfg.network_type = typeWeighted
    · rw [if_pos hw] at hsp
      have hf := mapM_ok_forall₂ _ G.nodes sp hsp
      rcases forall₂_lookup_row (singleSourceDijkstraPathLength G.adj) G.nodes sp hf hnd v hv
        with ⟨row, h1, h2⟩
      exact ⟨row, h1, Or.inr h2⟩
    · rw [if_neg hw] at hsp
      exact Except.noConfusion hsp

theorem spOf_row_props (G : Graph) (cfg : Config) (sp : List (ℕ × List (ℕ × ℚ)))
    (hsp : spOf G cfg = .ok sp) (hwf : GraphWF G) (v : ℕ) (hv : v ∈ G.nodes) :
    ∃ row, sp.lookup v = some row ∧ (row.map Prod.fst).Nodup ∧
      ∀ p ∈ row, p.1 = v ∨ 0 < p.2 := by
  rcases spOf_row G cfg sp hsp hwf.2.1 v hv with ⟨row, h1, h2 | h2⟩
  · refine ⟨row, h1, ?_, ?_⟩
    · rw [h2]
      exact bfs_keys_nodup G.adj v
    · intro p hp
      rw [h2] at hp
      rcases bfs_pos G.adj v p hp with hc | hc
      · exact Or.inl hc
      · right
        linarith
  · refine ⟨row, h1, dijkstra_keys_nodup G.adj v row h2, ?_⟩
    exact dijkstra_pos G.adj v (graph_dijkstraWeight_pos hwf) row h2

/-! ### Pagerank output shape -/

theorem prStep_length (G : Graph) (alpha : ℚ) (x : List ℚ) :
    (prStep G alpha x).length = G.nodes.length := by
  simp [prStep]

theorem prLoop_length (G : Graph) (cfg : Config) :
    ∀ (fuel : ℕ) (x : List ℚ) (pr : List ℚ), prLoop G cfg fuel x = .ok pr →
      pr.length = G.nodes.length := by
  intro fuel
  induction fuel with
  | zero =>
    intro x pr h
    exact Except.noConfusion h
  | succ fuel ih =>
    intro x pr h
    rw [prLoop] at h
    by_cases hc : l1diff (prStep G cfg.alpha x) x < (G.nodes.length : ℚ) * cfg.tol
    · rw [if_pos hc] at h
      simp only [Except.ok.injEq] at h
      rw [← h]
      exact prStep_length G cfg.alpha x
    · rw [if_neg hc] at h
      exact ih _ pr h

theorem pagerank_length (G : Graph) (cfg : Config) (pr : List ℚ)
    (h : pagerank G cfg = .ok pr) : pr.length = G.nodes.length := by
  unfold pagerank at h
  by_cases hn : G.nodes.length = 0
  · rw [if_pos hn] at h
    simp only [Except.ok.injEq] at h
    rw [← h, hn]
    rfl
  · rw [if_neg hn] at h
    exact prLoop_length G cfg cfg.max_iter _ pr h

/-! ### Hub-set lemmas -/

theorem zip_fst_sublist {α β : Type} : ∀ (l₁ : List α) (l₂ : List β),
    ((l₁.zip l₂).map Prod.fst).Sublist l₁ := by
  intro l₁
  induction l₁ with
  | nil =>
    intro l₂
    simp
  | cons a t ih =>
    intro l₂
    rcases l₂ with _ | ⟨b, t₂⟩
    · simp
    · rw [List.zip_cons_cons, List.map_cons]
      exact (ih t₂).cons₂ a

theorem hubsFrom_subset (nodes : List ℕ) (pr : List ℚ) (cutoff : ℚ) :
    ∀ v ∈ hubsFrom nodes pr cutoff, v ∈ nodes := by
  intro v hv
  unfold hubsFrom at hv
  rcases List.mem_map.mp hv with ⟨p, hp, hpv⟩
  rw [← hpv]
  exact (List.of_mem_zip (List.mem_filter.mp hp).1).1

theorem hubsFrom_nodup (nodes : List ℕ) (pr : List ℚ) (cutoff : ℚ) (hnd : nodes.Nodup) :
    (hubsFrom nodes pr cutoff).Nodup := by
  have h1 : (hubsFrom nodes pr cutoff).Sublist ((nodes.zip pr).map Prod.fst) :=
    ((nodes.zip pr).filter_sublist).map Prod.fst
  exact ((h1.trans (zip_fst_sublist nodes pr)).nodup) hnd

theorem mem_hubsFrom_iff (nodes : List ℕ) (pr : List ℚ) (cutoff : ℚ) (hnd : nodes.Nodup)
    (v : ℕ) :
    v ∈ hubsFrom nodes pr cutoff ↔ ∃ sc, (nodes.zip pr).lookup v = some sc ∧ cutoff ≤ sc := by
  have hkeys : ((nodes.zip pr).map Prod.fst).Nodup := (zip_fst_sublist nodes pr).nodup hnd
  constructor
  · intro hv
    rcases List.mem_map.mp hv with ⟨p, hp, hpv⟩
    have hmem := (List.mem_filter.mp hp).1
    have hc : cutoff ≤ p.2 := by
      have := (List.mem_filter.mp hp).2
      simpa using this
    refine ⟨p.2, ?_, hc⟩
    rw [← hpv, lookup_eq_some_iff_of_nodup hkeys]
    simpa using hmem
  · rintro ⟨sc, hlk, hc⟩
    have hm := lookup_eq_some_mem hlk
    exact List.mem_map.mpr ⟨(v, sc), List.mem_filter.mpr ⟨hm, by simpa using hc⟩, rfl⟩

/-! ### Hub-selection and incidence-write lemmas -/

theorem selectedFor_sublist (sp : List (ℕ × List (ℕ × ℚ))) (hubs : List ℕ) (nMost : ℤ)
    (v : ℕ) : (selectedFor sp hubs nMost v).Sublist
      (((sp.lookup v).getD []).filter (fun kd => hubs.contains kd.1)) :=
  List.take_sublist _ _

theorem selectedFor_mem (sp : List (ℕ × List (ℕ × ℚ))) (hubs : List ℕ) (nMost : ℤ) (v : ℕ)
    {kd : ℕ × ℚ} (hkd : kd ∈ selectedFor sp hubs nMost v) :
    kd ∈ (sp.lookup v).getD [] ∧ kd.1 ∈ hubs := by
  have hm := (selectedFor_sublist sp hubs nMost v).mem hkd
  have h1 := (List.mem_filter.mp hm).1
  have h2 := (List.mem_filter.mp hm).2
  exact ⟨h1, (contains_iff hubs kd.1).mp h2⟩

theorem selectedFor_length (sp : List (ℕ × List (ℕ × ℚ))) (hubs : List ℕ) (nMost : ℤ)
    (v : ℕ) : (selectedFor sp hubs nMost v).length =
      min nMost.toNat (((sp.lookup v).getD []).filter (fun kd => hubs.contains kd.1)).length := by
  unfold selectedFor
  rw [List.length_take]

theorem selectedFor_keys_nodup (sp : List (ℕ × List (ℕ × ℚ))) (hubs : List ℕ) (nMost : ℤ)
    (v : ℕ) (hnd : ((((sp.lookup v).getD []) : List (ℕ × ℚ)).map Prod.fst).Nodup) :
    ((selectedFor sp hubs nMost v).map Prod.fst).Nodup :=
  (((selectedFor_sublist sp hubs nMost v).trans (List.filter_sublist _)).map Prod.fst).nodup hnd

theorem weightFor_ok (cfg : Config) (d : ℚ) (w : ℚ) (h : weightFor cfg d = .ok w) :
    0 < w ∧ w = (if cfg.do_weight_hyperedge_influence then max (1 / d) (1 / 10000) else 1) ∧
      (cfg.do_weight_hyperedge_influence = true → d ≠ 0) := by
  unfold weightFor at h
  by_cases hb : cfg.do_weight_hyperedge_influence = true
  · rw [if_pos hb] at h ⊢
    by_cases hd : d = 0
    · rw [if_pos hd] at h
      exact Except.noConfusion h
    · rw [if_neg hd] at h
      have hw : w = max (1 / d) (1 / 10000) := by
        injection h with hh
        rw [hh]
      refine ⟨?_, hw.symm ▸ rfl, fun _ => hd⟩
      rw [hw]
      have : (0 : ℚ) < 1 / 10000 := by norm_num
      exact lt_of_lt_of_le this (le_max_right _ _)
  · rw [if_neg hb] at h ⊢
    have hw : w = 1 := by
      injection h with hh
      rw [hh]
    exact ⟨by rw [hw]; norm_num, hw.symm ▸ rfl, fun hc => absurd hc hb⟩

theorem rowWritesFor_hub (cfg : Config) (sp : List (ℕ × List (ℕ × ℚ))) (hubs : List ℕ)
    (v : ℕ) (hv : hubs.contains v = true) :
    rowWritesFor cfg sp hubs v = .ok [(hubs.indexOf v, 1)] := by
  unfold rowWritesFor
  rw [if_pos hv]

theorem rowWritesFor_nonhub (cfg : Config) (sp : List (ℕ × List (ℕ × ℚ))) (hubs : List ℕ)
    (v : ℕ) (hv : ¬ hubs.contains v = true) (ws : List (ℕ × ℚ))
    (hok : rowWritesFor cfg sp hubs v = .ok ws) :
    List.Forall₂ (fun kd cw => cw.1 = hubs.indexOf kd.1 ∧ weightFor cfg kd.2 = .ok cw.2)
      (selectedFor sp hubs cfg.n_most_influential v) ws := by
  unfold rowWritesFor at hok
  rw [if_neg hv] at hok
  have hf := mapM_ok_forall₂ _ _ _ hok
  refine hf.imp ?_
  intro a b hab
  rcases hw : weightFor cfg a.2 with e | w
  · rw [hw, map_error] at hab
    exact Except.noConfusion hab
  · rw [hw, map_ok] at hab
    injection hab with hh
    rw [← hh]
    exact ⟨rfl, by simp [hw]⟩

theorem forall₂_cols (sel : List (ℕ × ℚ)) (ws : List (ℕ × ℚ)) (cfg : Config) (hubs : List ℕ)
    (h : List.Forall₂ (fun kd cw => cw.1 = hubs.indexOf kd.1 ∧ weightFor cfg kd.2 = .ok cw.2)
      sel ws) : ws.map Prod.fst = sel.map (fun kd => hubs.indexOf kd.1) := by
  induction h with
  | nil => rfl
  | cons hab htail ih =>
    rw [List.map_cons, List.map_cons, ih, hab.1]

/-! ### indexOf utilities -/

theorem indexOf_inj {l : List ℕ} {a b : ℕ} (ha : a ∈ l) (hb : b ∈ l)
    (h : l.indexOf a = l.indexOf b) : a = b := by
  have ha' := List.indexOf_lt_length.mpr ha
  have hb' := List.indexOf_lt_length.mpr hb
  calc a = l.get ⟨l.indexOf a, ha'⟩ := (List.indexOf_get ha').symm
    _ = l.get ⟨l.indexOf b, hb'⟩ := by
        congr 1
        exact Fin.ext h
    _ = b := List.indexOf_get hb'

theorem map_indexOf_eq_range (l : List ℕ) (h : l.Nodup) :
    l.map (fun v => l.indexOf v) = List.range l.length := by
  refine List.ext_getElem (by simp) ?_
  intro i h1 h2
  simp only [List.getElem_map, List.getElem_range]
  have := List.get_indexOf h ⟨i, by simpa using h1⟩
  simpa using this

/-! ### Success-path inversion of the transform -/

theorem liftTopology_ok_inv (input : Input) (cfg : Config) (out : Output)
    (h : liftTopology input cfg = .ok out) :
    ∃ G sp pr cutoff,
      graphOf input cfg = .ok G ∧
      ¬ cfg.n_most_influential < 1 ∧
      spOf G cfg = .ok sp ∧
      pagerank G cfg = .ok pr ∧
      quantileLinear pr (1 - cfg.th_percentile) = .ok cutoff ∧
      incidenceFrom input.numNodes (hubsFrom G.nodes pr cutoff).length G.nodes
        (rowWritesFor cfg sp (hubsFrom G.nodes pr cutoff)) = .ok out.incidence_hyperedges ∧
      out.num_hyperedges = (hubsFrom G.nodes pr cutoff).length ∧
      out.x_0 = input.x ∧
      (cfg.do_hyperedge_node_assignment_feature_lifting_passthrough = true →
        ∃ t, hubFeatures input.x (hubsFrom G.nodes pr cutoff) = .ok t) := by
  unfold liftTopology liftTopologyT at h
  split at h
  · exact Except.noConfusion h
  · rename_i G hG
    split at h
    · exact Except.noConfusion h
    · rename_i hn
      split at h
      · exact Except.noConfusion h
      · rename_i sp hsp
        split at h
        · exact Except.noConfusion h
        · rename_i pr hpr
          split at h
          · exact Except.noConfusion h
          · rename_i cutoff hq
            split at h
            · exact Except.noConfusion h
            · rename_i M hM
              split at h
              · split at h
                · exact Except.noConfusion h
                · rename_i t ht
                  simp only [Except.ok.injEq] at h
                  refine ⟨G, sp, pr, cutoff, hG, hn, hsp, hpr, hq, ?_, ?_, ?_, ?_⟩
                  · rw [← h]
                    exact hM
                  · rw [← h]
                  · rw [← h]
                  · exact fun _ => ⟨t, ht⟩
              · rename_i hpass
                simp only [Except.ok.injEq] at h
                refine ⟨G, sp, pr, cutoff, hG, hn, hsp, hpr, hq, ?_, ?_, ?_, ?_⟩
                · rw [← h]
                  exact hM
                · rw [← h]
                · rw [← h]
                · exact fun hc => absurd hc hpass

theorem hubsOf_eq (input : Input) (cfg : Config) (G : Graph) (pr : List ℚ) (cutoff : ℚ)
    (hG : graphOf input cfg = .ok G) (hpr : pagerank G cfg = .ok pr)
    (hq : quantileLinear pr (1 - cfg.th_percentile) = .ok cutoff) :
    hubsOf input cfg = .ok (hubsFrom G.nodes pr cutoff) := by
  unfold hubsOf
  rw [hG, bindE_ok, hpr, bindE_ok, hq, map_ok]

theorem incidence_fold_rw_ok (numHyper : ℕ) (rw : ℕ → Except Err (List (ℕ × ℚ)))
    (nodes : List ℕ) :
    ∀ M0 M, nodes.foldlM (fun M v => (rw v).bind (writeRow numHyper v M)) M0 = .ok M →
      ∀ v ∈ nodes, ∃ ws, rw v = .ok ws := by
  induction nodes with
  | nil =>
    intro M0 M _ v hv
    simp at hv
  | cons u t ih =>
    intro M0 M h v hv
    simp only [List.foldlM_cons] at h
    rcases hr : rw u with e | ws
    · rw [hr] at h
      simp at h
    · rw [hr, bindE_ok] at h
      rcases hw : writeRow numHyper u M0 ws with e | M1
      · rw [hw] at h
        simp at h
      · rw [hw, ok_bind] at h
        rcases List.mem_cons.mp hv with hv' | hv'
        · exact ⟨ws, hv' ▸ hr⟩
        · exact ih M1 M h v hv'

/-- Shared analysis of a successful run's incidence row for a non-hub
node: the row is the zero row updated by the writes derived from the
node's selected hubs, the written columns are the selected hubs' slots,
and they are pairwise distinct. -/
theorem nonhub_row_spec (input : Input) (cfg : Config) (out : Output) (G : Graph)
    (sp : List (ℕ × List (ℕ × ℚ))) (hubs : List ℕ) (v : ℕ)
    (hrun : liftTopology input cfg = .ok out)
    (hG : graphOf input cfg = .ok G)
    (hsp : spOfInput input cfg = .ok sp)
    (hh : hubsOf input cfg = .ok hubs)
    (hv : v ∈ G.nodes) (hnh : v ∉ hubs) (hvn : v < input.numNodes) :
    ∃ ws, List.Forall₂ (fun kd cw => cw.1 = hubs.indexOf kd.1 ∧ weightFor cfg kd.2 = .ok cw.2)
        (selectedFor sp hubs cfg.n_most_influential v) ws ∧
      out.incidence_hyperedges.getD v [] =
        applyWrites (List.replicate out.num_hyperedges 0) ws ∧
      (ws.map Prod.fst).Nodup ∧
      ws.map Prod.fst =
        (selectedFor sp hubs cfg.n_most_influential v).map (fun kd => hubs.indexOf kd.1) ∧
      out.num_hyperedges = hubs.length := by
  rcases liftTopology_ok_inv input cfg out hrun with
    ⟨G', sp', pr, cutoff, hG', hn, hsp', hpr, hq, hM, hnum, hx0, hft⟩
  have hGG : G' = G := by
    rw [hG] at hG'
    injection hG' with h0
    exact h0.symm
  rw [hGG] at hsp' hpr hM hnum hft
  have hspsp : sp' = sp := by
    unfold spOfInput at hsp
    rw [hG, bindE_ok] at hsp
    rw [hsp] at hsp'
    injection hsp' with h0
    exact h0.symm
  rw [hspsp] at hM
  have hhubs : hubsFrom G.nodes pr cutoff = hubs := by
    have h1 := hubsOf_eq input cfg G pr cutoff hG hpr hq
    rw [hh] at h1
    injection h1 with h2
    exact h2.symm
  rw [hhubs] at hM hnum hft
  have hwf := graphOf_wf input cfg G hG
  have hcont : ¬ hubs.contains v = true := fun hc => hnh ((contains_iff _ _).mp hc)
  have hspok : spOf G cfg = .ok sp := by
    unfold spOfInput at hsp
    rw [hG, bindE_ok] at hsp
    exact hsp
  rcases incidence_fold_rw_ok hubs.length (rowWritesFor cfg sp hubs) G.nodes _ _
      (by unfold incidenceFrom at hM; exact hM) v hv with ⟨ws, hws⟩
  have hf := rowWritesFor_nonhub cfg sp hubs v hcont ws hws
  have hrow := incidenceFrom_row input.numNodes hubs.length G.nodes
    (rowWritesFor cfg sp hubs) hwf.2.1 v ws hv hws hvn out.incidence_hyperedges hM
  have hcols := forall₂_cols _ ws cfg hubs hf
  rcases spOf_row_props G cfg sp hspok hwf v hv with ⟨rowsp, hlk, hndk, _⟩
  have hselnd : ((selectedFor sp hubs cfg.n_most_influential v).map Prod.fst).Nodup := by
    refine selectedFor_keys_nodup sp hubs cfg.n_most_influential v ?_
    rw [hlk]
    simpa using hndk
  have hcolsnd : (ws.map Prod.fst).Nodup := by
    rw [hcols, show (selectedFor sp hubs cfg.n_most_influential v).map
        (fun kd => hubs.indexOf kd.1) =
      ((selectedFor sp hubs cfg.n_most_influential v).map Prod.fst).map
        (fun k => hubs.indexOf k) from by rw [List.map_map]; rfl]
    refine List.Nodup.map_on ?_ hselnd
    intro x hx y hy hxy
    rcases List.mem_map.mp hx with ⟨kdx, hkdx, hkx⟩
    rcases List.mem_map.mp hy with ⟨kdy, hkdy, hky⟩
    have hxh : x ∈ hubs := by
      rw [← hkx]
      exact (selectedFor_mem sp hubs cfg.n_most_influential v hkdx).2
    have hyh : y ∈ hubs := by
      rw [← hky]
      exact (selectedFor_mem sp hubs cfg.n_most_influential v hkdy).2
    exact indexOf_inj hxh hyh hxy
  refine ⟨ws, hf, ?_, hcolsnd, hcols, hnum⟩
  rw [hnum]
  exact hrow

/-! ### Concrete fixtures -/

/-- A three-node path graph 0 - 1 - 2 with no feature tables attached. -/
def pathInput : Input := ⟨3, [(0, 1), (1, 2)], none, none⟩

/-- Unweighted-mode configuration with tol = 1, under which the first
power iteration already meets the stopping rule. -/
def quickCfg : Config := ⟨typeUnweighted, 17 / 20, 1 / 20, 2, false, false, 100, 1⟩

/-- The Python defaults of the constructor (weighted mode, tol = 1e-6). -/
def defaultCfg : Config := ⟨typeWeighted, 17 / 20, 1 / 20, 2, false, false, 100, 1 / 1000000⟩

/-- quickCfg with an unsupported network type. -/
def cfgBadType : Config := ⟨"spectral", 17 / 20, 1 / 20, 2, false, false, 100, 1⟩

/-- quickCfg with th_percentile = 2/5. -/
def cfgC2 : Config := ⟨typeUnweighted, 17 / 20, 2 / 5, 2, false, false, 100, 1⟩

/-- quickCfg with the hub-feature passthrough enabled. -/
def cfgPass : Config := ⟨typeUnweighted, 17 / 20, 1 / 20, 2, false, true, 100, 1⟩

/-- The graph the transform builds from pathInput (attribute fallback
gives every node and edge the weight 1). -/
def pathGraph : Graph :=
  ⟨[0, 1, 2], [(0, 1), (1, 1), (2, 1)],
    [(0, [(1, [(wKey, 1)])]), (1, [(0, [(wKey, 1)]), (2, [(wKey, 1)])]),
      (2, [(1, [(wKey, 1)])])]⟩

/-! ### Claim C1 -/

/-- Claim C1 is refuted: with the unsupported network_type "spectral" the
transform raises NotImplementedError, but only after the graph model was
constructed from the input arrays — graphConstruction is in the
completed-stage trace, contradicting "fails fast before any graph
processing (before the graph model is constructed)". -/
theorem claim1_counterexample :
    liftTopology pathInput cfgBadType = .error .notImplementedError ∧
    Step.graphConstruction ∈ liftSteps pathInput cfgBadType := by
  decide

/-- Claim C1 (amended): with an unsupported network_type or with
n_most_influential < 1, provided graph construction itself succeeds, the
transform raises a configuration error (AssertionError or
NotImplementedError) before any distance or centrality computation is
performed. -/
theorem claim1_amended (input : Input) (cfg : Config) (G : Graph)
    (hbad : (cfg.network_type ≠ typeWeighted ∧ cfg.network_type ≠ typeUnweighted) ∨
      cfg.n_most_influential < 1)
    (hg : graphOf input cfg = .ok G) :
    (liftTopology input cfg = .error .assertionError ∨
      liftTopology input cfg = .error .notImplementedError) ∧
    Step.distanceComputation ∉ liftSteps input cfg ∧
    Step.centralityComputation ∉ liftSteps input cfg := by
  unfold liftTopology liftSteps liftTopologyT
  rw [hg]
  rcases hbad with ⟨hw, hu⟩ | hn
  · by_cases hn : cfg.n_most_influential < 1
    · simp [hn]
    · have hsp : spOf G cfg = Except.error Err.notImplementedError := by
        unfold spOf
        rw [if_neg hu, if_neg hw]
      simp [hn, hsp]
  · simp [hn]

/-- Witness for C1 (amended) at the concrete path-graph input. -/
theorem claim1_witness :
    (liftTopology pathInput cfgBadType = .error .assertionError ∨
      liftTopology pathInput cfgBadType = .error .notImplementedError) ∧
    Step.distanceComputation ∉ liftSteps pathInput cfgBadType ∧
    Step.centralityComputation ∉ liftSteps pathInput cfgBadType :=
  claim1_amended pathInput cfgBadType pathGraph (Or.inl (by decide)) (by decide)

/-! ### Claim C10 -/

/-- Claim C10: with the hub-feature passthrough enabled and `data.x`
absent, the transform never returns a result — some exception is raised
(at the latest the TypeError from indexing None with the hub list). -/
theorem claim10_theorem (input : Input) (cfg : Config)
    (hp : cfg.do_hyperedge_node_assignment_feature_lifting_passthrough = true)
    (hx : input.x = none) :
    isErr (liftTopology input cfg) = true := by
  rcases hres : liftTopology input cfg with e | out
  · rfl
  · rcases liftTopology_ok_inv input cfg out hres with
      ⟨G, sp, pr, cutoff, _, _, _, _, _, _, _, _, hft⟩
    rcases hft hp with ⟨t, ht⟩
    rw [hx] at ht
    exact absurd ht (by simp [hubFeatures])

/-- Witness for C10 at the concrete path-graph input. -/
theorem claim10_witness : isErr (liftTopology pathInput cfgPass) = true :=
  claim10_theorem pathInput cfgPass rfl rfl

/-! ### Claim C9 -/

/-- Claim C9: the transform is a pure deterministic function (two runs on
identical input and configuration are definitionally the same run), and
the hub-slot numbering `hyperedge_map` is a bijection from the hub list
onto [0, |HubSet|) assigned in hub enumeration order: the hubs are
pairwise distinct and their slots are exactly 0, 1, ..., |HubSet| - 1 in
order. -/
theorem claim9_theorem (input : Input) (cfg : Config) (hubs : List ℕ)
    (hh : hubsOf input cfg = .ok hubs) :
    liftTopology input cfg = liftTopology input cfg ∧
    hubs.Nodup ∧ hubs.map (fun v => hubs.indexOf v) = List.range hubs.length := by
  have hnd : hubs.Nodup := by
    unfold hubsOf at hh
    rcases hG : graphOf input cfg with e | G
    · rw [hG] at hh
      exact Except.noConfusion hh
    · rw [hG, bindE_ok] at hh
      rcases hpr : pagerank G cfg with e | pr
      · rw [hpr] at hh
        exact Except.noConfusion hh
      · rw [hpr, bindE_ok] at hh
        rcases hq : quantileLinear pr (1 - cfg.th_percentile) with e | cutoff
        · rw [hq] at hh
          exact Except.noConfusion hh
        · rw [hq, map_ok] at hh
          have hfix : hubsFrom G.nodes pr cutoff = hubs := by
            injection hh
          rw [← hfix]
          exact hubsFrom_nodup G.nodes pr cutoff (graphOf_wf input cfg G hG).2.1
  exact ⟨rfl, hnd, map_indexOf_eq_range hubs hnd⟩

/-- Witness for C9 at the concrete path-graph input: the sole hub is node
1 with slot 0. -/
theorem claim9_witness :
    liftTopology pathInput quickCfg = liftTopology pathInput quickCfg ∧
    ([1] : List ℕ).Nodup ∧
    ([1] : List ℕ).map (fun v => ([1] : List ℕ).indexOf v) = List.range ([1] : List ℕ).length :=
  claim9_theorem pathInput quickCfg [1] (by decide)

/-! ### Claims C3, C4, C5 -/

/-- The shortest-path table of the path-graph fixture. -/
def pathSp : List (ℕ × List (ℕ × ℚ)) :=
  [(0, [(0, 0), (1, 1), (2, 2)]), (1, [(1, 0), (0, 1), (2, 1)]), (2, [(2, 0), (1, 1), (0, 2)])]

/-- The transform output on the path-graph fixture under quickCfg. -/
def pathOut : Output := ⟨[[1], [1], [1]], 1, none, none⟩

/-- Claim C3: in a successful run, a hub node's incidence row has exactly
one nonzero entry, of value 1.0, in its own hub-slot column: the slot is
in range, the row spans all hyperedge columns, holds 1 at the node's own
slot and 0 everywhere else. -/
theorem claim3_theorem (input : Input) (cfg : Config) (out : Output) (hubs : List ℕ) (v : ℕ)
    (hrun : liftTopology input cfg = .ok out)
    (hh : hubsOf input cfg = .ok hubs)
    (hv : v ∈ hubs) (hvn : v < input.numNodes) :
    hubs.indexOf v < out.num_hyperedges ∧
    (out.incidence_hyperedges.getD v []).length = out.num_hyperedges ∧
    (out.incidence_hyperedges.getD v []).getD (hubs.indexOf v) 0 = 1 ∧
    ∀ j < out.num_hyperedges, j ≠ hubs.indexOf v →
      (out.incidence_hyperedges.getD v []).getD j 0 = 0 := by
  rcases liftTopology_ok_inv input cfg out hrun with
    ⟨G, sp, pr, cutoff, hG, hn, hsp, hpr, hq, hM, hnum, hx0, hft⟩
  have hhubs : hubsFrom G.nodes pr cutoff = hubs := by
    have h1 := hubsOf_eq input cfg G pr cutoff hG hpr hq
    rw [hh] at h1
    injection h1 with h2
    exact h2.symm
  rw [hhubs] at hM hnum
  have hwf := graphOf_wf input cfg G hG
  have hvF : v ∈ hubsFrom G.nodes pr cutoff := by
    rw [hhubs]
    exact hv
  have hvG : v ∈ G.nodes := hubsFrom_subset G.nodes pr cutoff v hvF
  have hcont : hubs.contains v = true := (contains_iff hubs v).mpr hv
  have hws := rowWritesFor_hub cfg sp hubs v hcont
  have hrow := incidenceFrom_row input.numNodes hubs.length G.nodes
    (rowWritesFor cfg sp hubs) hwf.2.1 v [(hubs.indexOf v, 1)] hvG hws hvn
    out.incidence_hyperedges hM
  have hslot : hubs.indexOf v < hubs.length := List.indexOf_lt_length.mpr hv
  refine ⟨?_, ?_, ?_, ?_⟩
  · rw [hnum]
    exact hslot
  · rw [hrow, applyWrites_length, List.length_replicate, hnum]
  · rw [hrow]
    refine applyWrites_getD_mem _ _ _ (by simp) (by simp) _ ?_
    rw [List.length_replicate]
    exact hslot
  · intro j hj hne
    rw [hrow, applyWrites_getD_not_mem _ j (by simp [hne]), getD_replicate_zero]

/-- Witness for C3: on the path-graph fixture, hub node 1 has the single
entry 1.0 in its own slot 0. -/
theorem claim3_witness :
    ([1] : List ℕ).indexOf 1 < pathOut.num_hyperedges ∧
    (pathOut.incidence_hyperedges.getD 1 []).length = pathOut.num_hyperedges ∧
    (pathOut.incidence_hyperedges.getD 1 []).getD (([1] : List ℕ).indexOf 1) 0 = 1 ∧
    ∀ j < pathOut.num_hyperedges, j ≠ ([1] : List ℕ).indexOf 1 →
      (pathOut.incidence_hyperedges.getD 1 []).getD j 0 = 0 :=
  claim3_theorem pathInput quickCfg pathOut [1] 1 (by decide) (by decide) (by decide)
    (by decide)

/-- Claim C4: in a successful run, a non-hub node is assigned exactly the
first min(n_most_influential, number of reachable hubs) entries of its
distance row restricted to hubs, in row insertion order: its selection
has exactly that length, its row's nonzero columns are exactly the
selected hubs' slots (hence at most n_most_influential nonzero entries),
and a node with no reachable hub keeps an all-zero row without any error
being raised. -/
theorem claim4_theorem (input : Input) (cfg : Config) (out : Output) (G : Graph)
    (sp : List (ℕ × List (ℕ × ℚ))) (hubs : List ℕ) (v : ℕ)
    (hrun : liftTopology input cfg = .ok out)
    (hG : graphOf input cfg = .ok G)
    (hsp : spOfInput input cfg = .ok sp)
    (hh : hubsOf input cfg = .ok hubs)
    (hv : v ∈ G.nodes) (hnh : v ∉ hubs) (hvn : v < input.numNodes) :
    (selectedFor sp hubs cfg.n_most_influential v).length =
      min cfg.n_most_influential.toNat
        ((((sp.lookup v).getD []).filter (fun kd => hubs.contains kd.1)).length) ∧
    (selectedFor sp hubs cfg.n_most_influential v).length ≤ cfg.n_most_influential.toNat ∧
    (∀ j < out.num_hyperedges,
      ((out.incidence_hyperedges.getD v []).getD j 0 ≠ 0 ↔
        ∃ kd ∈ selectedFor sp hubs cfg.n_most_influential v, hubs.indexOf kd.1 = j)) ∧
    ((((sp.lookup v).getD []).filter (fun kd => hubs.contains kd.1)) = [] →
      out.incidence_hyperedges.getD v [] = List.replicate out.num_hyperedges 0) := by
  rcases nonhub_row_spec input cfg out G sp hubs v hrun hG hsp hh hv hnh hvn with
    ⟨ws, hf, hrow, hnd, hcols, hnum⟩
  refine ⟨selectedFor_length sp hubs cfg.n_most_influential v, ?_, ?_, ?_⟩
  · rw [selectedFor_length]
    exact Nat.min_le_left _ _
  · intro j hj
    constructor
    · intro hnz
      by_contra hno
      push_neg at hno
      have hnotin : j ∉ ws.map Prod.fst := by
        rw [hcols]
        intro hmem
        rcases List.mem_map.mp hmem with ⟨kd, hkd, hkj⟩
        exact hno kd hkd hkj
      exact absurd
        (by rw [hrow, applyWrites_getD_not_mem ws j hnotin, getD_replicate_zero]) hnz
    · rintro ⟨kd, hkd, hkj⟩
      rcases forall₂_mem_left hf hkd with ⟨cw, hcw, hrel⟩
      have hcwj : cw = (j, cw.2) := by
        rcases cw with ⟨c1, c2⟩
        simp only
        rw [show c1 = (c1, c2).1 from rfl, hrel.1, hkj]
      have hgd : (out.incidence_hyperedges.getD v []).getD j 0 = cw.2 := by
        rw [hrow]
        refine applyWrites_getD_mem ws j cw.2 hnd ?_ _ ?_
        · rw [← hcwj]
          exact hcw
        · rw [List.length_replicate]
          exact hj
      rw [hgd]
      exact ne_of_gt (weightFor_ok cfg kd.2 cw.2 hrel.2).1
  · intro hfilt
    have hsel : selectedFor sp hubs cfg.n_most_influential v = [] := by
      unfold selectedFor
      rw [hfilt]
      simp
    rw [hsel] at hf
    have hws : ws = [] := by
      cases hf
      rfl
    rw [hrow, hws, applyWrites_nil]

/-- Witness for C4: on the path-graph fixture, non-hub node 0 is assigned
exactly its one reachable hub (node 1, slot 0). -/
theorem claim4_witness :
    (selectedFor pathSp [1] quickCfg.n_most_influential 0).length =
      min quickCfg.n_most_influential.toNat
        ((((pathSp.lookup 0).getD []).filter
          (fun kd => ([1] : List ℕ).contains kd.1)).length) ∧
    (selectedFor pathSp [1] quickCfg.n_most_influential 0).length ≤
      quickCfg.n_most_influential.toNat ∧
    (∀ j < pathOut.num_hyperedges,
      ((pathOut.incidence_hyperedges.getD 0 []).getD j 0 ≠ 0 ↔
        ∃ kd ∈ selectedFor pathSp [1] quickCfg.n_most_influential 0,
          ([1] : List ℕ).indexOf kd.1 = j)) ∧
    ((((pathSp.lookup 0).getD []).filter (fun kd => ([1] : List ℕ).contains kd.1)) = [] →
      pathOut.incidence_hyperedges.getD 0 [] = List.replicate pathOut.num_hyperedges 0) :=
  claim4_theorem pathInput quickCfg pathOut pathGraph pathSp [1] 0 (by decide) (by decide)
    (by decide) (by decide) (by decide) (by decide) (by decide)

/-- Claim C5: in a successful run, the incidence weight written for a
non-hub node v and a selected hub h at recorded distance d is 1 when
do_weight_hyperedge_influence is off and max(1/d, 1e-4) when it is on. -/
theorem claim5_theorem (input : Input) (cfg : Config) (out : Output) (G : Graph)
    (sp : List (ℕ × List (ℕ × ℚ))) (hubs : List ℕ) (v : ℕ) (kd : ℕ × ℚ)
    (hrun : liftTopology input cfg = .ok out)
    (hG : graphOf input cfg = .ok G)
    (hsp : spOfInput input cfg = .ok sp)
    (hh : hubsOf input cfg = .ok hubs)
    (hv : v ∈ G.nodes) (hnh : v ∉ hubs) (hvn : v < input.numNodes)
    (hkd : kd ∈ selectedFor sp hubs cfg.n_most_influential v) :
    (out.incidence_hyperedges.getD v []).getD (hubs.indexOf kd.1) 0 =
      if cfg.do_weight_hyperedge_influence then max (1 / kd.2) (1 / 10000) else 1 := by
  rcases nonhub_row_spec input cfg out G sp hubs v hrun hG hsp hh hv hnh hvn with
    ⟨ws, hf, hrow, hnd, hcols, hnum⟩
  rcases forall₂_mem_left hf hkd with ⟨cw, hcw, hrel⟩
  have hkh : kd.1 ∈ hubs := (selectedFor_mem sp hubs cfg.n_most_influential v hkd).2
  have hlt : hubs.indexOf kd.1 < hubs.length := List.indexOf_lt_length.mpr hkh
  have hcwj : cw = (hubs.indexOf kd.1, cw.2) := by
    rcases cw with ⟨c1, c2⟩
    simp only
    rw [show c1 = (c1, c2).1 from rfl, hrel.1]
  have hgd : (out.incidence_hyperedges.getD v []).getD (hubs.indexOf kd.1) 0 = cw.2 := by
    rw [hrow]
    refine applyWrites_getD_mem ws _ cw.2 hnd ?_ _ ?_
    · rw [← hcwj]
      exact hcw
    · rw [List.length_replicate, hnum]
      exact hlt
  rw [hgd]
  exact (weightFor_ok cfg kd.2 cw.2 hrel.2).2.1

/-- Witness for C5: on the path-graph fixture, non-hub node 0's entry for
hub 1 at distance 1 is exactly 1 (weighting disabled). -/
theorem claim5_witness :
    (pathOut.incidence_hyperedges.getD 0 []).getD (([1] : List ℕ).indexOf 1) 0 =
      if quickCfg.do_weight_hyperedge_influence then max (1 / (1 : ℚ)) (1 / 10000) else 1 :=
  claim5_theorem pathInput quickCfg pathOut pathGraph pathSp [1] 0 (1, 1) (by decide)
    (by decide) (by decide) (by decide) (by decide) (by decide) (by decide) (by decide)

/-! ### Claim C6 -/

/-- The input with a zero-weight edge (edge attributes [[1],[0]]). -/
def zInput : Input := ⟨3, [(0, 1), (1, 2)], some ⟨1, [[1], [0]]⟩, none⟩

/-- Weighted-mode configuration with inverse-distance weighting on. -/
def zCfg : Config := ⟨typeWeighted, 17 / 20, 1 / 20, 2, true, false, 100, 1⟩

/-- The graph built from zInput: the edge 1-2 stores weight 0. -/
def zGraph : Graph :=
  ⟨[0, 1, 2], [(0, 1), (1, 1), (2, 1)],
    [(0, [(1, [(wKey, 1)])]), (1, [(0, [(wKey, 1)]), (2, [(wKey, 0)])]),
      (2, [(1, [(wKey, 0)])])]⟩

/-- The shortest-path table of zInput under zCfg: the Dijkstra call reads
the absent "weight" attribute, so every edge length defaults to 1 and the
distances are hop counts even across the zero-weight edge. -/
def zSp : List (ℕ × List (ℕ × ℚ)) :=
  [(0, [(0, 0), (1, 1), (2, 2)]), (1, [(1, 0), (0, 1), (2, 1)]), (2, [(2, 0), (1, 1), (0, 2)])]

/-- Claim C6: for non-negative edge weights with inverse-distance
weighting enabled, the recorded distance of every (non-hub node, hub)
pair selected for an incidence entry is nonzero, so 1/d never divides by
zero.  (The shortest-path call reads the default "weight" edge attribute,
which the stored "w" attribute never populates, so every edge length is 1
and distances between distinct nodes are positive regardless of the
stored weights.) -/
theorem claim6_theorem (input : Input) (cfg : Config) (G : Graph)
    (sp : List (ℕ × List (ℕ × ℚ))) (hubs : List ℕ) (v : ℕ) (kd : ℕ × ℚ)
    (_ht : cfg.network_type = typeWeighted ∨ cfg.network_type = typeUnweighted)
    (hG : graphOf input cfg = .ok G)
    (hsp : spOfInput input cfg = .ok sp)
    (_hh : hubsOf input cfg = .ok hubs)
    (_hnn : ∀ r ∈ (edgeAttrOf input cfg).rows, ∀ x ∈ r, 0 ≤ x)
    (_hdw : cfg.do_weight_hyperedge_influence = true)
    (hv : v ∈ G.nodes) (hnh : v ∉ hubs)
    (hkd : kd ∈ selectedFor sp hubs cfg.n_most_influential v) :
    kd.2 ≠ 0 := by
  have hwf := graphOf_wf input cfg G hG
  have hspok : spOf G cfg = .ok sp := by
    unfold spOfInput at hsp
    rw [hG, bindE_ok] at hsp
    exact hsp
  rcases spOf_row_props G cfg sp hspok hwf v hv with ⟨rowsp, hlk, hndk, hpos⟩
  rcases selectedFor_mem sp hubs cfg.n_most_influential v hkd with ⟨hmemrow, hkh⟩
  rw [hlk] at hmemrow
  simp only [Option.getD_some] at hmemrow
  rcases hpos kd hmemrow with hc | hc
  · exact absurd (hc ▸ hkh) hnh
  · exact ne_of_gt hc

/-- Witness for C6: in the zero-weight-edge graph, non-hub node 2's
selected pair (hub 1, distance 1) has nonzero distance. -/
theorem claim6_witness : ((1 : ℕ), (1 : ℚ)).2 ≠ 0 :=
  claim6_theorem zInput zCfg zGraph zSp [0, 1] 2 (1, 1) (Or.inl rfl) (by decide) (by decide)
    (by decide) (by decide) rfl (by decide) (by decide) (by decide)

/-! ### Claim C2: quantile lower bound on the hub count -/

theorem sorted_getD_mono (s : List ℚ) (hs : List.Sorted (fun a b => a ≤ b) s) (a b : ℕ)
    (hab : a ≤ b) (hb : b < s.length) : s.getD a 0 ≤ s.getD b 0 := by
  rcases eq_or_lt_of_le hab with h | h
  · rw [h]
  · rw [List.getD_eq_getElem _ _ (lt_trans h hb), List.getD_eq_getElem _ _ hb]
    have := List.pairwise_iff_get.mp hs ⟨a, lt_trans h hb⟩ ⟨b, hb⟩ h
    simpa using this

theorem quantile_ok_inv (l : List ℚ) (q : ℚ) (cutoff : ℚ)
    (hq : quantileLinear l q = .ok cutoff) :
    l.length ≠ 0 ∧ ¬(q < 0 ∨ 1 < q) ∧
    (((⌊q * ((l.length : ℚ) - 1)⌋).toNat + 1 < l.length ∧
        cutoff =
          (List.insertionSort (fun a b => a ≤ b) l).getD (⌊q * ((l.length : ℚ) - 1)⌋).toNat 0 +
            (q * ((l.length : ℚ) - 1) - ((⌊q * ((l.length : ℚ) - 1)⌋).toNat : ℚ)) *
              ((List.insertionSort (fun a b => a ≤ b) l).getD
                  ((⌊q * ((l.length : ℚ) - 1)⌋).toNat + 1) 0 -
                (List.insertionSort (fun a b => a ≤ b) l).getD
                  (⌊q * ((l.length : ℚ) - 1)⌋).toNat 0)) ∨
      (¬ ((⌊q * ((l.length : ℚ) - 1)⌋).toNat + 1 < l.length) ∧
        cutoff =
          (List.insertionSort (fun a b => a ≤ b) l).getD
            (⌊q * ((l.length : ℚ) - 1)⌋).toNat 0)) := by
  unfold quantileLinear at hq
  by_cases h0 : l.length = 0
  · rw [if_pos h0] at hq
    exact Except.noConfusion hq
  · rw [if_neg h0] at hq
    by_cases h1 : q < 0 ∨ 1 < q
    · rw [if_pos h1] at hq
      exact Except.noConfusion hq
    · rw [if_neg h1] at hq
      by_cases h2 : (⌊q * ((l.length : ℚ) - 1)⌋).toNat + 1 < l.length
      · rw [if_pos h2] at hq
        refine ⟨h0, h1, Or.inl ⟨h2, ?_⟩⟩
        injection hq with hc
        exact hc.symm
      · rw [if_neg h2] at hq
        refine ⟨h0, h1, Or.inr ⟨h2, ?_⟩⟩
        injection hq with hc
        exact hc.symm

theorem quantile_le_sorted (l : List ℚ) (q : ℚ) (cutoff : ℚ)
    (h0 : 0 ≤ q) (h1 : q ≤ 1) (hq : quantileLinear l q = .ok cutoff) :
    ∀ j, (⌈q * ((l.length : ℚ) - 1)⌉).toNat ≤ j → j < l.length →
      cutoff ≤ (List.insertionSort (fun a b => a ≤ b) l).getD j 0 := by
  rcases quantile_ok_inv l q cutoff hq with ⟨hn0, _, hbr⟩
  have hn1 : 1 ≤ l.length := Nat.one_le_iff_ne_zero.mpr hn0
  have hnn : (0 : ℚ) ≤ (l.length : ℚ) - 1 := by
    have : (1 : ℚ) ≤ (l.length : ℚ) := by exact_mod_cast hn1
    linarith
  have hh0 : (0 : ℚ) ≤ q * ((l.length : ℚ) - 1) := mul_nonneg h0 hnn
  have hh1 : q * ((l.length : ℚ) - 1) ≤ (l.length : ℚ) - 1 := mul_le_of_le_one_left hnn h1
  have hfl0 : (0 : ℤ) ≤ ⌊q * ((l.length : ℚ) - 1)⌋ := Int.floor_nonneg.mpr hh0
  have hcast : (((⌊q * ((l.length : ℚ) - 1)⌋).toNat : ℕ) : ℚ) =
      ((⌊q * ((l.length : ℚ) - 1)⌋ : ℤ) : ℚ) := by
    exact_mod_cast congrArg (fun z : ℤ => (z : ℚ)) (Int.toNat_of_nonneg hfl0)
  have hfloor_le : (((⌊q * ((l.length : ℚ) - 1)⌋).toNat : ℕ) : ℚ) ≤ q * ((l.length : ℚ) - 1) := by
    rw [hcast]
    exact Int.floor_le _
  have hlt_floor : q * ((l.length : ℚ) - 1) <
      (((⌊q * ((l.length : ℚ) - 1)⌋).toNat : ℕ) : ℚ) + 1 := by
    rw [hcast]
    have := Int.lt_floor_add_one (q * ((l.length : ℚ) - 1))
    push_cast at this
    linarith
  have hflub : ⌊q * ((l.length : ℚ) - 1)⌋ ≤ (l.length : ℤ) - 1 := by
    have h2 : q * ((l.length : ℚ) - 1) ≤ (((l.length : ℤ) - 1 : ℤ) : ℚ) := by
      push_cast
      linarith
    have := Int.floor_le_floor h2
    rwa [Int.floor_intCast] at this
  have hilt : (⌊q * ((l.length : ℚ) - 1)⌋).toNat < l.length := by omega
  have hsorted : List.Sorted (fun a b => a ≤ b) (List.insertionSort (fun a b => a ≤ b) l) :=
    List.sorted_insertionSort (fun a b => a ≤ b) l
  have hslen : (List.insertionSort (fun a b => a ≤ b) l).length = l.length :=
    (List.perm_insertionSort (fun a b => a ≤ b) l).length_eq
  intro j hmj hjn
  rcases hbr with ⟨h2, hc⟩ | ⟨h2, hc⟩
  · by_cases hγ : q * ((l.length : ℚ) - 1) = (((⌊q * ((l.length : ℚ) - 1)⌋).toNat : ℕ) : ℚ)
    · have hm : (⌈q * ((l.length : ℚ) - 1)⌉).toNat = (⌊q * ((l.length : ℚ) - 1)⌋).toNat := by
        have : ⌈q * ((l.length : ℚ) - 1)⌉ = ⌊q * ((l.length : ℚ) - 1)⌋ := by
          rw [hγ, hcast, Int.ceil_intCast, Int.floor_intCast]
        rw [this]
      have hz : q * ((l.length : ℚ) - 1) -
          (((⌊q * ((l.length : ℚ) - 1)⌋).toNat : ℕ) : ℚ) = 0 := sub_eq_zero.mpr hγ
      have hcut : cutoff =
          (List.insertionSort (fun a b => a ≤ b) l).getD (⌊q * ((l.length : ℚ) - 1)⌋).toNat 0 := by
        rw [hc, hz, zero_mul, add_zero]
      rw [hcut]
      refine sorted_getD_mono _ hsorted _ j ?_ (by rw [hslen]; exact hjn)
      rw [← hm]
      exact hmj
    · have hγpos : (((⌊q * ((l.length : ℚ) - 1)⌋).toNat : ℕ) : ℚ) < q * ((l.length : ℚ) - 1) :=
        lt_of_le_of_ne hfloor_le (fun hh => hγ hh.symm)
      have hm : (⌈q * ((l.length : ℚ) - 1)⌉).toNat = (⌊q * ((l.length : ℚ) - 1)⌋).toNat + 1 := by
        have hup : ⌈q * ((l.length : ℚ) - 1)⌉ ≤ ⌊q * ((l.length : ℚ) - 1)⌋ + 1 :=
          Int.ceil_le_floor_add_one _
        have hlow : ⌊q * ((l.length : ℚ) - 1)⌋ < ⌈q * ((l.length : ℚ) - 1)⌉ := by
          by_contra hcon
          push_neg at hcon
          have hle : q * ((l.length : ℚ) - 1) ≤ ((⌊q * ((l.length : ℚ) - 1)⌋ : ℤ) : ℚ) :=
            le_trans (Int.le_ceil _) (by exact_mod_cast hcon)
          rw [← hcast] at hle
          exact absurd (le_antisymm hle hfloor_le) (by exact fun hh => hγ hh)
        omega
      have hadj : (List.insertionSort (fun a b => a ≤ b) l).getD
            (⌊q * ((l.length : ℚ) - 1)⌋).toNat 0 ≤
          (List.insertionSort (fun a b => a ≤ b) l).getD
            ((⌊q * ((l.length : ℚ) - 1)⌋).toNat + 1) 0 :=
        sorted_getD_mono _ hsorted _ _ (Nat.le_succ _) (by rw [hslen]; exact h2)
      have hγ1 : q * ((l.length : ℚ) - 1) - (((⌊q * ((l.length : ℚ) - 1)⌋).toNat : ℕ) : ℚ) ≤ 1 := by
        linarith
      have hcut_le : cutoff ≤ (List.insertionSort (fun a b => a ≤ b) l).getD
          ((⌊q * ((l.length : ℚ) - 1)⌋).toNat + 1) 0 := by
        have key : 0 ≤ (1 - (q * ((l.length : ℚ) - 1) -
            (((⌊q * ((l.length : ℚ) - 1)⌋).toNat : ℕ) : ℚ))) *
            ((List.insertionSort (fun a b => a ≤ b) l).getD
                ((⌊q * ((l.length : ℚ) - 1)⌋).toNat + 1) 0 -
              (List.insertionSort (fun a b => a ≤ b) l).getD
                (⌊q * ((l.length : ℚ) - 1)⌋).toNat 0) :=
          mul_nonneg (by linarith) (by linarith)
        rw [hc]
        nlinarith [key]
      refine le_trans hcut_le ?_
      refine sorted_getD_mono _ hsorted _ j ?_ (by rw [hslen]; exact hjn)
      rw [← hm]
      exact hmj
  · have hieq : (⌊q * ((l.length : ℚ) - 1)⌋).toNat = l.length - 1 := by omega
    have hγ : q * ((l.length : ℚ) - 1) = (((⌊q * ((l.length : ℚ) - 1)⌋).toNat : ℕ) : ℚ) := by
      refine le_antisymm ?_ hfloor_le
      have : (((⌊q * ((l.length : ℚ) - 1)⌋).toNat : ℕ) : ℚ) = ((l.length : ℚ) - 1) := by
        rw [hieq]
        have : ((l.length - 1 : ℕ) : ℚ) = (l.length : ℚ) - 1 := by
          have : ((l.length - 1 : ℕ) : ℤ) = (l.length : ℤ) - 1 := by omega
          exact_mod_cast this
        rw [this]
      rw [this]
      exact hh1
    have hm : (⌈q * ((l.length : ℚ) - 1)⌉).toNat = (⌊q * ((l.length : ℚ) - 1)⌋).toNat := by
      have : ⌈q * ((l.length : ℚ) - 1)⌉ = ⌊q * ((l.length : ℚ) - 1)⌋ := by
        rw [hγ, hcast, Int.ceil_intCast, Int.floor_intCast]
      rw [this]
    have hjeq : j = (⌊q * ((l.length : ℚ) - 1)⌋).toNat := by omega
    rw [hc, hjeq]

theorem quantile_count (l : List ℚ) (q : ℚ) (cutoff : ℚ)
    (h0 : 0 ≤ q) (h1 : q ≤ 1) (hq : quantileLinear l q = .ok cutoff) :
    l.length - (⌈q * ((l.length : ℚ) - 1)⌉).toNat ≤
      (l.filter (fun x => cutoff ≤ x)).length := by
  have hperm := List.perm_insertionSort (fun a b => a ≤ b) l
  have hslen : (List.insertionSort (fun a b => a ≤ b) l).length = l.length := hperm.length_eq
  have hfilt : (l.filter (fun x => cutoff ≤ x)).length =
      ((List.insertionSort (fun a b => a ≤ b) l).filter (fun x => cutoff ≤ x)).length :=
    (hperm.filter _).length_eq.symm
  rw [hfilt]
  have hdropfull : ((List.insertionSort (fun a b => a ≤ b) l).drop
        (⌈q * ((l.length : ℚ) - 1)⌉).toNat).filter (fun x => cutoff ≤ x) =
      (List.insertionSort (fun a b => a ≤ b) l).drop (⌈q * ((l.length : ℚ) - 1)⌉).toNat := by
    rw [List.filter_eq_self]
    intro x hx
    rcases List.mem_iff_getElem.mp hx with ⟨k, hk, hkx⟩
    have hjlt : (⌈q * ((l.length : ℚ) - 1)⌉).toNat + k < l.length := by
      rw [List.length_drop, hslen] at hk
      omega
    have hxval : x = (List.insertionSort (fun a b => a ≤ b) l).getD
        ((⌈q * ((l.length : ℚ) - 1)⌉).toNat + k) 0 := by
      rw [List.getD_eq_getElem _ _ (by rw [hslen]; exact hjlt)]
      rw [← @List.getElem_drop ℚ (List.insertionSort (fun a b => a ≤ b) l)
        (⌈q * ((l.length : ℚ) - 1)⌉).toNat k hk]
      exact hkx.symm
    have hle := quantile_le_sorted l q cutoff h0 h1 hq
      ((⌈q * ((l.length : ℚ) - 1)⌉).toNat + k) (Nat.le_add_right _ _) hjlt
    rw [← hxval] at hle
    simpa using hle
  calc l.length - (⌈q * ((l.length : ℚ) - 1)⌉).toNat
      = ((List.insertionSort (fun a b => a ≤ b) l).drop
          (⌈q * ((l.length : ℚ) - 1)⌉).toNat).length := by
        rw [List.length_drop, hslen]
    _ = (((List.insertionSort (fun a b => a ≤ b) l).drop
          (⌈q * ((l.length : ℚ) - 1)⌉).toNat).filter (fun x => cutoff ≤ x)).length := by
        rw [hdropfull]
    _ ≤ ((List.insertionSort (fun a b => a ≤ b) l).filter (fun x => cutoff ≤ x)).length := by
        refine List.Sublist.length_le ?_
        exact ((List.drop_sublist _ _).filter _)

theorem zip_filter_snd_length (nodes : List ℕ) (pr : List ℚ) (cutoff : ℚ)
    (hlen : nodes.length = pr.length) :
    ((nodes.zip pr).filter (fun nv => cutoff ≤ nv.2)).length =
      (pr.filter (fun x => cutoff ≤ x)).length := by
  induction nodes generalizing pr with
  | nil =>
    rcases pr with _ | ⟨b, u⟩
    · simp
    · simp at hlen
  | cons a t ih =>
    rcases pr with _ | ⟨b, u⟩
    · simp at hlen
    · rw [List.zip_cons_cons]
      by_cases hc : cutoff ≤ b
      · simp only [List.filter_cons]
        rw [if_pos (by simpa using hc), if_pos (by simpa using hc)]
        simp only [List.length_cons]
        rw [ih u (by simpa using hlen)]
      · simp only [List.filter_cons]
        rw [if_neg (by simpa using hc), if_neg (by simpa using hc)]
        exact ih u (by simpa using hlen)

theorem floor_ceil_bridge (n : ℕ) (th : ℚ) (h0 : 0 ≤ th) (h1 : th ≤ 1) (hn : 1 ≤ n) :
    1 + (⌊th * ((n : ℚ) - 1)⌋).toNat = n - (⌈(1 - th) * ((n : ℚ) - 1)⌉).toNat := by
  have hnn : (0 : ℚ) ≤ (n : ℚ) - 1 := by
    have : (1 : ℚ) ≤ (n : ℚ) := by exact_mod_cast hn
    linarith
  have hfl0 : (0 : ℤ) ≤ ⌊th * ((n : ℚ) - 1)⌋ := Int.floor_nonneg.mpr (mul_nonneg h0 hnn)
  have hflub : ⌊th * ((n : ℚ) - 1)⌋ ≤ (n : ℤ) - 1 := by
    have h2 : th * ((n : ℚ) - 1) ≤ (((n : ℤ) - 1 : ℤ) : ℚ) := by
      push_cast
      exact mul_le_of_le_one_left hnn h1
    have h3 := Int.floor_le_floor h2
    rwa [Int.floor_intCast] at h3
  have hceil : ⌈(1 - th) * ((n : ℚ) - 1)⌉ = ((n : ℤ) - 1) - ⌊th * ((n : ℚ) - 1)⌋ := by
    have hrw : (1 - th) * ((n : ℚ) - 1) = -(th * ((n : ℚ) - 1) - (((n : ℤ) - 1 : ℤ) : ℚ)) := by
      push_cast
      ring
    rw [hrw, Int.ceil_neg, Int.floor_sub_int]
    ring
  omega

/-- The pagerank scores of the path graph under tol = 1 (one iteration). -/
def pathPr : List ℚ := [23 / 120, 37 / 60, 23 / 120]

/-- Claim C2's size bound is refuted on the 3-node path graph with
th_percentile = 2/5: the hub set is exactly node 1 (size 1), but
ceil(th_percentile * num_nodes) = ceil(6/5) = 2. -/
theorem claim2_counterexample :
    hubsOf pathInput cfgC2 = .ok [1] ∧
    ¬ ((⌈cfgC2.th_percentile * (pathInput.numNodes : ℚ)⌉ : ℤ) ≤ (([1] : List ℕ).length : ℤ)) := by
  constructor
  · decide
  · decide

/-- Claim C2 (amended): for every th_percentile in [0, 1], the hub set
consists of exactly the nodes whose influence score reaches the
(1 - th_percentile) linear-interpolation quantile of all scores, and its
size is at least 1 + floor(th_percentile * (num_nodes - 1)) (the bound
ceil(th_percentile * num_nodes) claimed originally can fail). -/
theorem claim2_amended (input : Input) (cfg : Config) (G : Graph) (pr : List ℚ) (cutoff : ℚ)
    (hG : graphOf input cfg = .ok G) (hpr : pagerank G cfg = .ok pr)
    (hq : quantileLinear pr (1 - cfg.th_percentile) = .ok cutoff)
    (h0 : 0 ≤ cfg.th_percentile) (h1 : cfg.th_percentile ≤ 1) :
    (∀ v, v ∈ hubsFrom G.nodes pr cutoff ↔
      ∃ sc, (G.nodes.zip pr).lookup v = some sc ∧ cutoff ≤ sc) ∧
    1 + (⌊cfg.th_percentile * ((G.nodes.length : ℚ) - 1)⌋).toNat ≤
      (hubsFrom G.nodes pr cutoff).length := by
  have hwf := graphOf_wf input cfg G hG
  have hlen := pagerank_length G cfg pr hpr
  constructor
  · exact fun v => mem_hubsFrom_iff G.nodes pr cutoff hwf.2.1 v
  · have hq0 : 0 ≤ 1 - cfg.th_percentile := by linarith
    have hq1 : 1 - cfg.th_percentile ≤ 1 := by linarith
    have hcount := quantile_count pr _ cutoff hq0 hq1 hq
    have hn0 : pr.length ≠ 0 := (quantile_ok_inv pr _ cutoff hq).1
    have hzl := zip_filter_snd_length G.nodes pr cutoff hlen.symm
    have hlength : (hubsFrom G.nodes pr cutoff).length =
        (pr.filter (fun x => cutoff ≤ x)).length := by
      unfold hubsFrom
      rw [List.length_map]
      exact hzl
    rw [hlen] at hcount
    have hn1 : 1 ≤ G.nodes.length := by
      rw [← hlen]
      omega
    have hbridge := floor_ceil_bridge G.nodes.length cfg.th_percentile h0 h1 hn1
    omega

/-- Witness for C2 (amended) on the path graph with th_percentile = 1/20:
the sole hub is node 1 and 1 + floor((1/20) * 2) = 1 ≤ 1. -/
theorem claim2_witness :
    (∀ v, v ∈ hubsFrom pathGraph.nodes pathPr (689 / 1200) ↔
      ∃ sc, (pathGraph.nodes.zip pathPr).lookup v = some sc ∧ (689 / 1200 : ℚ) ≤ sc) ∧
    1 + (⌊quickCfg.th_percentile * ((pathGraph.nodes.length : ℚ) - 1)⌋).toNat ≤
      (hubsFrom pathGraph.nodes pathPr (689 / 1200)).length :=
  claim2_amended pathInput quickCfg pathGraph pathPr (689 / 1200) (by decide) (by decide)
    (by decide) (by decide) (by decide)

/-! ### Claim C8 -/

/-- The scalar the node loop reads for node v: `node_attr[v][0]`. -/
def nodeWeightUsed (input : Input) (cfg : Config) (v : ℕ) : Except Err ℚ :=
  headE ((nodeAttrOf input cfg).rows.getD v [])

/-- The scalar the edge loop reads for edge e: `edge_attr[e][0]`. -/
def edgeWeightUsed (input : Input) (cfg : Config) (e : ℕ) : Except Err ℚ :=
  headE ((edgeAttrOf input cfg).rows.getD e [])

theorem addNode_nodeW (G : Graph) (u : ℕ) : (addNode G u).nodeW = G.nodeW := by
  unfold addNode
  by_cases hs : (G.adj.lookup u).isSome = true
  · rw [if_pos hs]
  · rw [if_neg hs]

theorem addEdge_nodeW (G : Graph) (u v : ℕ) (w : ℚ) : (addEdge G u v w).nodeW = G.nodeW := by
  show (addNode (addNode G u) v).nodeW = G.nodeW
  rw [addNode_nodeW, addNode_nodeW]

theorem nodeFold_nodeW (rows : List (List ℚ)) (k : ℕ) :
    ∀ G0 G1, (List.range k).foldlM (nodeStep rows) G0 = .ok G1 →
      ∀ v < k, ∃ w, headE (rows.getD v []) = .ok w ∧ G1.nodeW.lookup v = some w := by
  induction k with
  | zero =>
    intro G0 G1 _ v hv
    omega
  | succ k ih =>
    intro G0 G1 h v hv
    rw [List.range_succ, List.foldlM_append] at h
    rcases hmid : (List.range k).foldlM (nodeStep rows) G0 with e | Gk
    · rw [hmid] at h
      simp at h
    · rw [hmid, ok_bind] at h
      simp only [List.foldlM_cons, List.foldlM_nil] at h
      rcases hstep : nodeStep rows Gk k with e | G1'
      · rw [hstep] at h
        simp at h
      · rw [hstep, ok_bind] at h
        have hG1 : G1' = G1 := by
          simpa using h
        unfold nodeStep at hstep
        rcases hhd : headE (rows.getD k []) with e | w
        · rw [hhd, map_error] at hstep
          exact Except.noConfusion hstep
        · rw [hhd, map_ok] at hstep
          have hG1' : setNodeW (addNode Gk k) k w = G1' := by
            injection hstep
          by_cases hvk : v = k
          · subst hvk
            refine ⟨w, hhd, ?_⟩
            rw [← hG1, ← hG1']
            exact lookup_dictSet_self _ _ _
          · rcases ih G0 Gk hmid v (by omega) with ⟨w2, hw2, hlk⟩
            refine ⟨w2, hw2, ?_⟩
            rw [← hG1, ← hG1']
            unfold setNodeW
            simp only
            rw [lookup_dictSet_ne _ _ _ _ hvk, addNode_nodeW]
            exact hlk

/-- The node weight the code reads is indeed the weight stored on the
graph node. -/
theorem graphOf_nodeW (input : Input) (cfg : Config) (G : Graph)
    (hg : graphOf input cfg = .ok G) (v : ℕ)
    (hv : v < (nodeAttrOf input cfg).rows.length) :
    ∃ w, nodeWeightUsed input cfg v = .ok w ∧ G.nodeW.lookup v = some w := by
  unfold graphOf at hg
  rcases h1 : (List.range (nodeAttrOf input cfg).rows.length).foldlM
      (nodeStep (nodeAttrOf input cfg).rows) (Graph.mk [] [] []) with e | G1
  · rw [h1] at hg
    simp at hg
  · rw [h1, bindE_ok] at hg
    rcases nodeFold_nodeW (nodeAttrOf input cfg).rows _ _ _ h1 v hv with ⟨w, hw, hlk⟩
    refine ⟨w, hw, ?_⟩
    refine exceptFold_inv (fun Gx => Gx.nodeW.lookup v = some w) _ _ G1 G hlk ?_ hg
    intro st a sn hP _ hstep
    unfold edgeStep at hstep
    rcases hh : headE ((edgeAttrOf input cfg).rows.getD a []) with e | ww
    · rw [hh, map_error] at hstep
      exact Except.noConfusion hstep
    · rw [hh, map_ok] at hstep
      rw [← show addEdge st (input.edges.getD a (0, 0)).1 (input.edges.getD a (0, 0)).2 ww = sn
        from by injection hstep]
      rw [addEdge_nodeW]
      exact hP

theorem onesTable_getD (n v : ℕ) (hv : v < n) : (onesTable n).rows.getD v [] = [1] := by
  unfold onesTable
  simp only
  rw [List.getD_eq_getElem _ _ (by simpa using hv), List.getElem_replicate]

/-- Claim C8 is refuted on a feature table with zero columns: the claim
says the node weight falls back to 1, but the code indexes the empty
feature row and raises IndexError instead. -/
theorem claim8_counterexample :
    nodeWeightUsed (Input.mk 1 [] none (some (Table.mk 0 [[]]))) defaultCfg 0 =
        .error .indexError ∧
    liftTopology (Input.mk 1 [] none (some (Table.mk 0 [[]]))) defaultCfg =
        .error .indexError := by
  constructor
  · decide
  · decide

/-- Claim C8 (amended): the node weight used in graph construction is the
first scalar of the node's feature row exactly when node features exist,
the mode is not "unweighted", and the feature table has exactly one
column; when features are absent, the mode is unweighted, or the table
has more than one column, the weight is 1; a zero-column table instead
raises IndexError (as the counterexample shows); and the edge weight
follows the identical rule on the edge's feature row.  Whatever scalar is
read is the weight stored on the constructed graph node. -/
theorem claim8_amended (input : Input) (cfg : Config) (v e : ℕ) :
    (∀ t, input.x = some t → cfg.network_type ≠ typeUnweighted → t.cols = 1 →
      nodeWeightUsed input cfg v = headE (t.rows.getD v [])) ∧
    ((input.x = none ∨ cfg.network_type = typeUnweighted ∨
        (∃ t, input.x = some t ∧ 1 < t.cols)) →
      v < input.numNodes → nodeWeightUsed input cfg v = .ok 1) ∧
    (∀ t, input.edgeAttr = some t → cfg.network_type ≠ typeUnweighted → t.cols = 1 →
      edgeWeightUsed input cfg e = headE (t.rows.getD e [])) ∧
    ((input.edgeAttr = none ∨ cfg.network_type = typeUnweighted ∨
        (∃ t, input.edgeAttr = some t ∧ 1 < t.cols)) →
      e < input.edges.length → edgeWeightUsed input cfg e = .ok 1) ∧
    (∀ G, graphOf input cfg = .ok G → v < (nodeAttrOf input cfg).rows.length →
      ∃ w, nodeWeightUsed input cfg v = .ok w ∧ G.nodeW.lookup v = some w) := by
  refine ⟨?_, ?_, ?_, ?_, fun G hg hv => graphOf_nodeW input cfg G hg v hv⟩
  · intro t hx hu hc
    unfold nodeWeightUsed nodeAttrOf
    rw [hx]
    simp only
    rw [if_neg]
    push_neg
    exact ⟨hu, by omega⟩
  · intro hcase hv
    have hones : nodeAttrOf input cfg = onesTable input.numNodes := by
      unfold nodeAttrOf
      rcases hx : input.x with hnone | t
      · rfl
      · rcases hcase with hc | hc | ⟨t2, ht2, hc⟩
        · rw [hx] at hc
          exact Option.noConfusion hc
        · simp only
          rw [if_pos (Or.inl hc)]
        · rw [hx] at ht2
          have : t2 = t := by
            injection ht2 with hh
            rw [hh]
          rw [this] at hc
          simp only
          rw [if_pos (Or.inr hc)]
    unfold nodeWeightUsed
    rw [hones, onesTable_getD input.numNodes v hv]
    rfl
  · intro t hx hu hc
    unfold edgeWeightUsed edgeAttrOf
    rw [hx]
    simp only
    rw [if_neg]
    push_neg
    exact ⟨hu, by omega⟩
  · intro hcase he
    have hones : edgeAttrOf input cfg = onesTable input.edges.length := by
      unfold edgeAttrOf
      rcases hx : input.edgeAttr with hnone | t
      · rfl
      · rcases hcase with hc | hc | ⟨t2, ht2, hc⟩
        · rw [hx] at hc
          exact Option.noConfusion hc
        · simp only
          rw [if_pos (Or.inl hc)]
        · rw [hx] at ht2
          have : t2 = t := by
            injection ht2 with hh
            rw [hh]
          rw [this] at hc
          simp only
          rw [if_pos (Or.inr hc)]
    unfold edgeWeightUsed
    rw [hones, onesTable_getD input.edges.length e he]
    rfl

/-- Witness for C8 (amended) on an input with a one-column node feature
table [[5], [7]] and no edge features. -/
theorem claim8_witness :
    nodeWeightUsed (Input.mk 2 [(0, 1)] none (some (Table.mk 1 [[5], [7]]))) defaultCfg 0 =
      headE ((Table.mk 1 [[5], [7]] : Table).rows.getD 0 []) ∧
    edgeWeightUsed (Input.mk 2 [(0, 1)] none (some (Table.mk 1 [[5], [7]]))) defaultCfg 0 =
      .ok 1 := by
  constructor
  · exact (claim8_amended (Input.mk 2 [(0, 1)] none (some (Table.mk 1 [[5], [7]])))
      defaultCfg 0 0).1 (Table.mk 1 [[5], [7]]) rfl (by decide) rfl
  · exact (claim8_amended (Input.mk 2 [(0, 1)] none (some (Table.mk 1 [[5], [7]])))
      defaultCfg 0 0).2.2.2.1 (Or.inl rfl) (by decide)

/-! ### Claim C7 -/

/-- The graph the construction loops build from `n` nodes and no edges. -/
def edgelessGraph (n : ℕ) : Graph :=
  ⟨List.range n, (List.range n).map (fun v => (v, 1)),
    (List.range n).map (fun v => (v, []))⟩

theorem map_pair_fst {α : Type} (l : List ℕ) (f : ℕ → α) :
    (l.map (fun v => (v, f v))).map Prod.fst = l := by
  rw [List.map_map]
  exact List.map_id'' (fun x => rfl) l

theorem dictSet_append {α : Type} (l : List (ℕ × α)) (k : ℕ) (a : α)
    (h : k ∉ l.map Prod.fst) : dictSet l k a = l ++ [(k, a)] := by
  induction l with
  | nil => rfl
  | cons p t ih =>
    rcases p with ⟨k2, b⟩
    simp only [List.map_cons, List.mem_cons] at h
    push_neg at h
    have hne : ¬ k2 = k := fun hh => h.1 hh.symm
    simp only [dictSet, if_neg hne]
    rw [ih h.2]
    rfl

theorem edgeless_adj_keys (n : ℕ) : (edgelessGraph n).adj.map Prod.fst = List.range n :=
  map_pair_fst (List.range n) (fun _ => [])

theorem edgeless_adj_lookup (n v : ℕ) (hv : v < n) :
    (edgelessGraph n).adj.lookup v = some [] :=
  lookup_map_self (List.range n) (fun _ => ([] : List (ℕ × EdgeData)))
    (List.nodup_range n) (List.mem_range.mpr hv)

theorem edgeless_adj_lookup_none (n v : ℕ) (hv : ¬ v < n) :
    (edgelessGraph n).adj.lookup v = none := by
  rw [lookup_none_iff, edgeless_adj_keys]
  simpa using hv

theorem edgeless_rowSum (n u : ℕ) : rowSum (edgelessGraph n).adj u = 0 := by
  unfold rowSum
  by_cases hu : u < n
  · rw [edgeless_adj_lookup n u hu]
    rfl
  · rw [edgeless_adj_lookup_none n u hu]
    rfl

theorem nodeFold_edgeless (m : ℕ) :
    ∀ k, k ≤ m →
      (List.range k).foldlM (nodeStep (List.replicate m [1])) (Graph.mk [] [] []) =
        .ok (edgelessGraph k) := by
  intro k
  induction k with
  | zero =>
    intro _
    rfl
  | succ k ih =>
    intro hk
    rw [List.range_succ, List.foldlM_append, ih (by omega), ok_bind]
    simp only [List.foldlM_cons, List.foldlM_nil]
    have hrow : (List.replicate m ([1] : List ℚ)).getD k [] = [1] := by
      rw [List.getD_eq_getElem _ _ (by simpa using (by omega : k < m)), List.getElem_replicate]
    have hstep : nodeStep (List.replicate m [1]) (edgelessGraph k) k =
        .ok (setNodeW (addNode (edgelessGraph k) k) k 1) := by
      unfold nodeStep
      rw [hrow]
      rfl
    rw [hstep, ok_bind, pure_eq_ok, Except.ok.injEq]
    have hlk : (edgelessGraph k).adj.lookup k = none := by
      rw [lookup_none_iff, edgeless_adj_keys]
      simp
    have haddn : addNode (edgelessGraph k) k =
        Graph.mk (List.range k ++ [k]) ((List.range k).map (fun v => (v, 1)))
          ((List.range k).map (fun v => (v, [])) ++ [(k, [])]) := by
      unfold addNode
      rw [hlk]
      rfl
    rw [haddn]
    unfold setNodeW
    have hds : dictSet ((List.range k).map (fun v => (v, (1 : ℚ)))) k 1 =
        (List.range k).map (fun v => (v, 1)) ++ [(k, 1)] := by
      apply dictSet_append
      rw [map_pair_fst]
      simp
    simp only
    rw [hds]
    unfold edgelessGraph
    rw [List.range_succ, List.map_append, List.map_append]
    rfl

theorem graphOf_edgeless (n : ℕ) (cfg : Config) :
    graphOf (Input.mk n [] none none) cfg = .ok (edgelessGraph n) := by
  unfold graphOf
  have hattr : nodeAttrOf (Input.mk n [] none none) cfg = onesTable n := rfl
  rw [hattr]
  have hrows : (onesTable n).rows = List.replicate n [1] := rfl
  rw [hrows, List.length_replicate, nodeFold_edgeless n n (le_refl n), bindE_ok]
  rfl

theorem bfsLoop_isolated (adj : Adj) (fuel s : ℕ) (hadj : adj.lookup s = some []) :
    bfsLoop adj (fuel + 1 + 1) [] [s] 0 = [(s, 0)] := by
  have h0 : bfsLoop adj (fuel + 1 + 1) [] [s] 0 =
      bfsLoop adj (fuel + 1) [(s, 0)] (dictInsertKeys [] (adjKeys adj s)) 1 := rfl
  rw [h0]
  unfold adjKeys
  rw [hadj]
  rfl

theorem bfs_isolated (adj : Adj) (s : ℕ) (hadj : adj.lookup s = some []) :
    singleSourceShortestPathLength adj s = [(s, 0)] := by
  unfold singleSourceShortestPathLength
  exact bfsLoop_isolated adj adj.length s hadj

theorem popMin_singleton (e : ℚ × ℕ × ℕ) : popMin [e] = some (e, []) := by
  show some (minEntry e [], [e].erase (minEntry e [])) = some (e, [])
  rw [show minEntry e [] = e from rfl, List.erase_cons_head]

theorem dijkstraLoop_succ_some (adj : Adj) (fuel : ℕ) (dist seen : List (ℕ × ℚ))
    (heap rest : List (ℚ × ℕ × ℕ)) (d : ℚ) (c u : ℕ) (counter : ℕ)
    (hpop : popMin heap = some ((d, c, u), rest)) :
    dijkstraLoop adj (fuel + 1) dist seen heap counter =
      if (dist.lookup u).isSome then dijkstraLoop adj fuel dist seen rest counter
      else
        match relaxEdges (dist ++ [(u, d)]) d ((adj.lookup u).getD []) (seen, rest, counter) with
        | .error e => .error e
        | .ok st => dijkstraLoop adj fuel (dist ++ [(u, d)]) st.1 st.2.1 st.2.2 := by
  rw [dijkstraLoop, hpop]

theorem dijkstra_isolated (adj : Adj) (s : ℕ) (hadj : adj.lookup s = some []) :
    singleSourceDijkstraPathLength adj s = .ok [(s, 0)] := by
  unfold singleSourceDijkstraPathLength
  obtain ⟨m, hm⟩ : ∃ m, dijkstraFuel adj = m + 1 + 1 := ⟨dijkstraFuel adj - 2, by
    unfold dijkstraFuel
    omega⟩
  rw [hm, dijkstraLoop_succ_some adj (m + 1) [] [(s, 0)] [(0, 0, s)] [] 0 0 s 1
    (popMin_singleton (0, 0, s))]
  rw [hadj]
  rfl

theorem mapM_ok_map {α β : Type} (f : α → Except Err β) (g : α → β) :
    ∀ l : List α, (∀ a ∈ l, f a = .ok (g a)) → l.mapM f = .ok (l.map g) := by
  intro l
  induction l with
  | nil => intro _; rfl
  | cons a t ih =>
    intro h
    rw [List.mapM_cons, h a (List.mem_cons_self a t), ok_bind,
      ih (fun x hx => h x (List.mem_cons_of_mem a hx)), ok_bind]
    rfl

/-- The per-source distance rows of the edgeless graph: every node only
reaches itself, at distance zero, in both modes. -/
def spEdgeless (n : ℕ) : List (ℕ × List (ℕ × ℚ)) :=
  (List.range n).map (fun s => (s, [(s, 0)]))

theorem spOf_edgeless (n : ℕ) (cfg : Config)
    (ht : cfg.network_type = typeUnweighted ∨ cfg.network_type = typeWeighted) :
    spOf (edgelessGraph n) cfg = .ok (spEdgeless n) := by
  rcases ht with ht | ht
  · unfold spOf
    rw [if_pos ht]
    unfold spEdgeless
    congr 1
    apply List.map_congr_left
    intro s hs
    have hs' := List.mem_range.mp hs
    rw [bfs_isolated (edgelessGraph n).adj s (edgeless_adj_lookup n s hs')]
  · unfold spOf
    have hne : ¬ cfg.network_type = typeUnweighted := by
      rw [ht]
      decide
    rw [if_neg hne, if_pos ht]
    unfold spEdgeless
    apply mapM_ok_map
    intro s hs
    have hs' := List.mem_range.mp (hs : s ∈ List.range n)
    rw [dijkstra_isolated _ s (edgeless_adj_lookup n s hs'), map_ok]

theorem l1diff_self (x : List ℚ) : l1diff x x = 0 := by
  unfold l1diff
  induction x with
  | nil => rfl
  | cons a t ih =>
    rw [List.zip_cons_cons, List.map_cons, List.sum_cons, ih, sub_self, abs_zero, zero_add]

theorem zip_map_snd {α β : Type} : ∀ (l₁ : List α) (l₂ : List β),
    l₂.length ≤ l₁.length → (l₁.zip l₂).map Prod.snd = l₂ := by
  intro l₁
  induction l₁ with
  | nil =>
    intro l₂ h
    have h2 : l₂ = [] := List.length_eq_zero.mp (Nat.le_zero.mp (by simpa using h))
    rw [h2]
    rfl
  | cons a t ih =>
    intro l₂ h
    cases l₂ with
    | nil => rfl
    | cons b t₂ =>
      rw [List.zip_cons_cons, List.map_cons, ih t₂ (by simpa using h)]

theorem zip_map_fst {α β : Type} : ∀ (l₁ : List α) (l₂ : List β),
    l₁.length ≤ l₂.length → (l₁.zip l₂).map Prod.fst = l₁ := by
  intro l₁
  induction l₁ with
  | nil =>
    intro l₂ _
    rfl
  | cons a t ih =>
    intro l₂ h
    cases l₂ with
    | nil => simp at h
    | cons b t₂ =>
      rw [List.zip_cons_cons, List.map_cons, ih t₂ (by simpa using h)]

theorem prStep_edgeless (n : ℕ) (alpha : ℚ) (hn : 1 ≤ n) :
    prStep (edgelessGraph n) alpha (List.replicate n (1 / (n : ℚ))) =
      List.replicate n (1 / (n : ℚ)) := by
  have hne : ((n : ℚ)) ≠ 0 := by
    have h0 : (0 : ℚ) < (n : ℚ) := by exact_mod_cast Nat.lt_of_lt_of_le Nat.zero_lt_one hn
    exact ne_of_gt h0
  unfold prStep
  refine List.eq_replicate_iff.mpr ⟨by simp [edgelessGraph], ?_⟩
  intro b hb
  obtain ⟨j, hj, rfl⟩ := List.mem_map.mp hb
  have hsum0 : ((((edgelessGraph n).nodes.zip (List.replicate n (1 / (n : ℚ)))).map
      (fun iv => iv.2 * stochEntry (edgelessGraph n).adj iv.1 j)).sum) = 0 := by
    apply List.sum_eq_zero
    intro x hx
    obtain ⟨iv, hiv, rfl⟩ := List.mem_map.mp hx
    rw [stochEntry, if_pos (edgeless_rowSum n iv.1), mul_zero]
  have hfil : (((edgelessGraph n).nodes.zip (List.replicate n (1 / (n : ℚ)))).filter
      (fun nv => rowSum (edgelessGraph n).adj nv.1 = 0)) =
      ((edgelessGraph n).nodes.zip (List.replicate n (1 / (n : ℚ)))) := by
    apply List.filter_eq_self.mpr
    intro a _
    simp [edgeless_rowSum]
  have hdang : ((((edgelessGraph n).nodes.zip (List.replicate n (1 / (n : ℚ)))).filter
      (fun nv => rowSum (edgelessGraph n).adj nv.1 = 0)).map Prod.snd).sum = 1 := by
    rw [hfil, zip_map_snd _ _ (by simp [edgelessGraph]), List.sum_replicate, nsmul_eq_mul,
      mul_one_div, div_self hne]
  have hlen : ((edgelessGraph n).nodes.length : ℚ) = (n : ℚ) := by
    simp [edgelessGraph]
  simp only [hsum0, hdang, hlen]
  ring

theorem pagerank_edgeless (n : ℕ) (cfg : Config) (hn : 1 ≤ n) (htol : 0 < cfg.tol)
    (hit : 1 ≤ cfg.max_iter) :
    pagerank (edgelessGraph n) cfg = .ok (List.replicate n (1 / (n : ℚ))) := by
  have hlen : (edgelessGraph n).nodes.length = n := by
    simp [edgelessGraph]
  have hpos : (0 : ℚ) < (n : ℚ) * cfg.tol := by
    have h0 : (0 : ℚ) < (n : ℚ) := by exact_mod_cast Nat.lt_of_lt_of_le Nat.zero_lt_one hn
    exact mul_pos h0 htol
  unfold pagerank
  rw [hlen, if_neg (by omega : ¬ n = 0)]
  obtain ⟨m, hm⟩ : ∃ m, cfg.max_iter = m + 1 := ⟨cfg.max_iter - 1, by omega⟩
  rw [hm, prLoop, hlen, prStep_edgeless n cfg.alpha hn, l1diff_self, if_pos hpos]

theorem sort_replicate_getD (n : ℕ) (c : ℚ) (i : ℕ) (hi : i < n) :
    (List.insertionSort (fun a b => a ≤ b) (List.replicate n c)).getD i 0 = c := by
  have hperm := List.perm_insertionSort (fun a b => a ≤ b) (List.replicate n c)
  have hlen : (List.insertionSort (fun a b => a ≤ b) (List.replicate n c)).length = n := by
    rw [hperm.length_eq, List.length_replicate]
  rw [List.getD_eq_getElem _ _ (by rw [hlen]; exact hi)]
  exact List.eq_of_mem_replicate (hperm.mem_iff.mp (List.getElem_mem _))

theorem quantile_replicate (n : ℕ) (c : ℚ) (q : ℚ) (hn : 1 ≤ n) (hq0 : 0 ≤ q)
    (hq1 : q ≤ 1) : quantileLinear (List.replicate n c) q = .ok c := by
  have hn1 : (1 : ℚ) ≤ (n : ℚ) := by exact_mod_cast hn
  have hsub : (0 : ℚ) ≤ (n : ℚ) - 1 := by linarith
  have hmul : q * ((n : ℚ) - 1) ≤ (n : ℚ) - 1 := mul_le_of_le_one_left hsub hq1
  have hcast : ((n : ℚ) - 1) = (((n : ℤ) - 1 : ℤ) : ℚ) := by push_cast; ring
  have hfl : ⌊q * ((n : ℚ) - 1)⌋ ≤ (n : ℤ) - 1 := by
    have h1 := Int.floor_le_floor hmul
    have h2 : ⌊((n : ℚ) - 1)⌋ = (n : ℤ) - 1 := by rw [hcast, Int.floor_intCast]
    rw [h2] at h1
    exact h1
  have hidx : (⌊q * ((n : ℚ) - 1)⌋).toNat < n := by omega
  unfold quantileLinear
  simp only [List.length_replicate]
  rw [if_neg (by omega : ¬ n = 0), if_neg (by push_neg; exact ⟨hq0, hq1⟩)]
  by_cases hb : (⌊q * ((n : ℚ) - 1)⌋).toNat + 1 < n
  · rw [if_pos hb, sort_replicate_getD n c _ hidx, sort_replicate_getD n c _ hb,
      sub_self, mul_zero, add_zero]
  · rw [if_neg hb, sort_replicate_getD n c _ hidx]

theorem hubsFrom_edgeless (n : ℕ) (c : ℚ) :
    hubsFrom (List.range n) (List.replicate n c) c = List.range n := by
  unfold hubsFrom
  have hall : ∀ a ∈ (List.range n).zip (List.replicate n c),
      (fun nv => decide (c ≤ nv.2)) a = true := by
    intro a ha
    obtain ⟨a1, a2⟩ := a
    have h2 : a2 ∈ List.replicate n c := (List.of_mem_zip ha).2
    have h3 : a2 = c := List.eq_of_mem_replicate h2
    simp [h3]
  rw [List.filter_eq_self.mpr hall, zip_map_fst _ _ (by simp)]

theorem indexOf_range (n v : ℕ) (hv : v < n) : (List.range n).indexOf v = v := by
  have h := map_indexOf_eq_range (List.range n) (List.nodup_range n)
  have h2 : ((List.range n).map (fun u => (List.range n).indexOf u)).getD v 0 =
      (List.range (List.range n).length).getD v 0 := by rw [h]
  rw [List.getD_eq_getElem _ _ (by simpa using hv), List.getElem_map, List.getElem_range,
    List.length_range, List.getD_eq_getElem _ _ (by simpa using hv), List.getElem_range] at h2
  exact h2

theorem rowWritesFor_edgeless (cfg : Config) (sp : List (ℕ × List (ℕ × ℚ))) (n v : ℕ)
    (hv : v < n) : rowWritesFor cfg sp (List.range n) v = .ok [(v, 1)] := by
  unfold rowWritesFor
  rw [if_pos ((contains_iff _ _).mpr (List.mem_range.mpr hv)), indexOf_range n v hv]

theorem writeRow_singleton_ok (n v : ℕ) (M : List (List ℚ)) (hv : v < M.length)
    (hc : v < n) : writeRow n v M [(v, 1)] = .ok (M.set v ((M.getD v []).set v 1)) := by
  unfold writeRow
  rw [List.foldlM_cons, if_pos ⟨hv, hc⟩, ok_bind, List.foldlM_nil]
  rfl

theorem incidence_edgeless_ok (cfg : Config) (sp : List (ℕ × List (ℕ × ℚ))) (n : ℕ) :
    ∃ M, incidenceFrom n n (List.range n) (rowWritesFor cfg sp (List.range n)) = .ok M := by
  unfold incidenceFrom
  obtain ⟨Mf, hMf, _⟩ := exceptFold_ok (fun M => M.length = n)
    (fun M v => (rowWritesFor cfg sp (List.range n) v).bind (writeRow n v M))
    (List.range n) (List.replicate n (List.replicate n 0)) (by simp)
    (fun M v hP hv => ⟨M.set v ((M.getD v []).set v 1), by
        show (rowWritesFor cfg sp (List.range n) v).bind (writeRow n v M) = _
        rw [rowWritesFor_edgeless cfg sp n v (List.mem_range.mp hv), bindE_ok,
          writeRow_singleton_ok n v M (by rw [show M.length = n from hP]; exact List.mem_range.mp hv)
            (List.mem_range.mp hv)],
      by
        show (M.set v ((M.getD v []).set v 1)).length = n
        rw [List.length_set]
        exact hP⟩)
  exact ⟨Mf, hMf⟩

/-- Claim C7 is refuted on the zero-node side: an empty input raises
ValueError at the quantile step (np.quantile of an empty score list), after
distance and centrality computation rather than returning an empty result. -/
theorem claim7_counterexample :
    liftTopology (Input.mk 0 [] none none) defaultCfg = .error .valueError ∧
    liftSteps (Input.mk 0 [] none none) defaultCfg =
      [Step.graphConstruction, Step.assertionCheck, Step.distanceComputation,
       Step.centralityComputation] := by
  constructor
  · decide
  · decide

/-- Claim C7 (amended): for any input with `n ≥ 1` nodes, no edges, and
neither a node-feature nor an edge-feature table, under any valid
configuration (a supported mode, `n_most_influential ≥ 1`, a percentile in
[0, 1], positive tolerance, at least one pagerank iteration, passthrough
off), the transform raises no error and returns the well-defined result in
which every node is its own hub: an `n × n` identity incidence matrix with
`n` hyperedges.  The zero-NODE half of the claim fails (see the
counterexample), and the feature-free restriction is needed: a zero-edge
input with a zero-column feature table raises IndexError (the input of
the C8 counterexample). -/
theorem claim7_amended (n : ℕ) (cfg : Config) (hn : 1 ≤ n)
    (ht : cfg.network_type = typeUnweighted ∨ cfg.network_type = typeWeighted)
    (hm : 1 ≤ cfg.n_most_influential)
    (hth0 : 0 ≤ cfg.th_percentile) (hth1 : cfg.th_percentile ≤ 1)
    (htol : 0 < cfg.tol) (hit : 1 ≤ cfg.max_iter)
    (hpass : cfg.do_hyperedge_node_assignment_feature_lifting_passthrough = false) :
    ∃ M, liftTopology (Input.mk n [] none none) cfg = .ok (Output.mk M n none none) ∧
      M.length = n ∧
      ∀ v, v < n →
        (M.getD v []).length = n ∧
        ∀ j, j < n → (M.getD v []).getD j 0 = if j = v then 1 else 0 := by
  obtain ⟨M, hM⟩ := incidence_edgeless_ok cfg (spEdgeless n) n
  refine ⟨M, ?_, incidenceFrom_len n n _ _ M hM, ?_⟩
  · unfold liftTopology liftTopologyT
    split
    · rename_i e hG
      rw [graphOf_edgeless n cfg] at hG
      exact Except.noConfusion hG
    · rename_i G hG
      rw [graphOf_edgeless n cfg] at hG
      injection hG with hG
      subst hG
      rw [if_neg (by omega : ¬ cfg.n_most_influential < 1)]
      split
      · rename_i e hsp
        rw [spOf_edgeless n cfg ht] at hsp
        exact Except.noConfusion hsp
      · rename_i sp hsp
        rw [spOf_edgeless n cfg ht] at hsp
        injection hsp with hsp
        subst hsp
        split
        · rename_i e hpr
          rw [pagerank_edgeless n cfg hn htol hit] at hpr
          exact Except.noConfusion hpr
        · rename_i pr hpr
          rw [pagerank_edgeless n cfg hn htol hit] at hpr
          injection hpr with hpr
          subst hpr
          split
          · rename_i e hq
            rw [quantile_replicate n (1 / (n : ℚ)) (1 - cfg.th_percentile) hn
              (by linarith) (by linarith)] at hq
            exact Except.noConfusion hq
          · rename_i cutoff hq
            rw [quantile_replicate n (1 / (n : ℚ)) (1 - cfg.th_percentile) hn
              (by linarith) (by linarith)] at hq
            injection hq with hq
            subst hq
            rw [show (edgelessGraph n).nodes = List.range n from rfl,
              hubsFrom_edgeless n (1 / (n : ℚ)), List.length_range,
              show (Input.mk n [] none none).numNodes = n from rfl]
            split
            · rename_i e hbad
              rw [hM] at hbad
              exact Except.noConfusion hbad
            · rename_i M2 hM2
              rw [hM] at hM2
              injection hM2 with hM2
              subst hM2
              rw [if_neg (by simp [hpass])]
  · intro v hv
    have hrow := incidenceFrom_row n n (List.range n)
      (rowWritesFor cfg (spEdgeless n) (List.range n)) (List.nodup_range n) v [(v, 1)]
      (List.mem_range.mpr hv) (rowWritesFor_edgeless cfg (spEdgeless n) n v hv) hv M hM
    constructor
    · rw [hrow, applyWrites_length, List.length_replicate]
    · intro j hj
      by_cases hjv : j = v
      · subst hjv
        rw [if_pos rfl, hrow]
        exact applyWrites_getD_mem [(j, 1)] j 1 (by simp) (List.mem_cons_self _ _) _
          (by simpa using hj)
      · rw [if_neg hjv, hrow, applyWrites_getD_not_mem [(v, 1)] j (by simp [hjv]),
          getD_replicate_zero]

/-- Witness for C7 (amended) at a two-node edgeless input: the run
succeeds with a 2 × 2 identity incidence and both nodes as hubs. -/
theorem claim7_witness :
    ∃ M, liftTopology (Input.mk 2 [] none none) quickCfg = .ok (Output.mk M 2 none none) ∧
      M.length = 2 ∧ (M.getD 0 []).getD 0 0 = 1 ∧ (M.getD 0 []).getD 1 0 = 0 ∧
      (M.getD 1 []).getD 0 0 = 0 ∧ (M.getD 1 []).getD 1 0 = 1 := by
  obtain ⟨M, h1, h2, h3⟩ := claim7_amended 2 quickCfg (by decide) (Or.inl rfl) (by decide)
    (by decide) (by decide) (by decide) (by decide) rfl
  refine ⟨M, h1, h2, ?_, ?_, ?_, ?_⟩
  · have h := (h3 0 (by decide)).2 0 (by decide)
    simpa using h
  · have h := (h3 0 (by decide)).2 1 (by decide)
    simpa using h
  · have h := (h3 1 (by decide)).2 0 (by decide)
    simpa using h
  · have h := (h3 1 (by decide)).2 1 (by decide)
    simpa using h

end NodeCentrality
